import Mathlib

/-!
Verification development for the slurm-tui streaming log-rendering engine
(`logs.go`): the byte-stream interpreter `tailRenderer`, the file follower
`logFollower`, and the `mergedBuffer`.  Bytes are modelled as `Nat` values
(< 256 for real inputs), runes as `Char`, Go slices as `List`, and the Go
`int` cursor fields as `Int` so that the non-negativity invariants are
meaningful statements rather than artifacts of the encoding.
-/

set_option maxRecDepth 10000

/-- Model of `go-runewidth`'s `RuneWidth`, covering the character classes
relevant to this development: C0/C1 control characters and combining
diacritical marks are zero-width, the common East-Asian wide/fullwidth
ranges are double-width, and everything else is single-width. -/
def runeWidth (c : Char) : Nat :=
  let v := c.toNat
  if v < 0x20 then 0
  else if v < 0x7f then 1
  else if v < 0xa0 then 0
  else if 0x0300 ≤ v ∧ v ≤ 0x036f then 0
  else if (0x1100 ≤ v ∧ v ≤ 0x115f) ∨ (0x2e80 ≤ v ∧ v ≤ 0x303e) ∨
          (0x3041 ≤ v ∧ v ≤ 0x33ff) ∨ (0x3400 ≤ v ∧ v ≤ 0x4dbf) ∨
          (0x4e00 ≤ v ∧ v ≤ 0x9fff) ∨ (0xa000 ≤ v ∧ v ≤ 0xa4cf) ∨
          (0xac00 ≤ v ∧ v ≤ 0xd7a3) ∨ (0xf900 ≤ v ∧ v ≤ 0xfaff) ∨
          (0xfe30 ≤ v ∧ v ≤ 0xfe4f) ∨ (0xff00 ≤ v ∧ v ≤ 0xff60) ∨
          (0xffe0 ≤ v ∧ v ≤ 0xffe6) then 2
  else 1

/-- The clamped width used throughout `logs.go`:
`rw := runewidth.RuneWidth(ru); if rw < 1 { rw = 1 }`. -/
def cw (c : Char) : Nat :=
  let rw := runeWidth c
  if rw < 1 then 1 else rw

/-- Sum of clamped per-character visual widths. -/
def visWidth (cs : List Char) : Nat := (cs.map cw).sum

/-! ### Model of Go `unicode/utf8` (`FullRune`, `DecodeRune`) -/

/-- Expected sequence length for a leading byte, per Go's `first` table
(invalid leading bytes have size 1). -/
def utf8Size (b : Nat) : Nat :=
  if b < 0x80 then 1
  else if b < 0xc2 then 1
  else if b < 0xe0 then 2
  else if b < 0xf0 then 3
  else if b < 0xf5 then 4
  else 1

/-- Leading bytes marked `xx` (invalid) in Go's `first` table. -/
def utf8Invalid (b : Nat) : Bool :=
  (0x80 ≤ b ∧ b < 0xc2) ∨ 0xf5 ≤ b

/-- Lower bound of the accept range for the second byte, given the leading
byte (Go's `acceptRanges`). -/
def acceptLo (b0 : Nat) : Nat :=
  if b0 = 0xe0 then 0xa0 else if b0 = 0xf0 then 0x90 else 0x80

/-- Upper bound of the accept range for the second byte, given the leading
byte (Go's `acceptRanges`). -/
def acceptHi (b0 : Nat) : Nat :=
  if b0 = 0xed then 0x9f else if b0 = 0xf4 then 0x8f else 0xbf

/-- Model of `utf8.FullRune`: whether `p` begins with a full UTF-8 encoding
of a rune (an invalid encoding counts as full). -/
def fullRune (p : List Nat) : Bool :=
  match p with
  | [] => false
  | b0 :: rest =>
    if b0 < 0x80 ∨ utf8Invalid b0 then true
    else if utf8Size b0 ≤ p.length then true
    else
      match rest with
      | [] => false
      | b1 :: rest2 =>
        if b1 < acceptLo b0 ∨ acceptHi b0 < b1 then true
        else
          match rest2 with
          | [] => false
          | b2 :: _ => if b2 < 0x80 ∨ 0xbf < b2 then true else false

/-- Model of `utf8.DecodeRune`: code point (`0xFFFD` = `RuneError`) and the
number of bytes consumed. -/
def decodeRune (p : List Nat) : Nat × Nat :=
  match p with
  | [] => (0xfffd, 0)
  | b0 :: rest =>
    if b0 < 0x80 then (b0, 1)
    else if utf8Invalid b0 then (0xfffd, 1)
    else if p.length < utf8Size b0 then (0xfffd, 1)
    else
      match rest with
      | [] => (0xfffd, 1)
      | b1 :: rest2 =>
        if b1 < acceptLo b0 ∨ acceptHi b0 < b1 then (0xfffd, 1)
        else if utf8Size b0 = 2 then ((b0 % 32) * 64 + b1 % 64, 2)
        else
          match rest2 with
          | [] => (0xfffd, 1)
          | b2 :: rest3 =>
            if b2 < 0x80 ∨ 0xbf < b2 then (0xfffd, 1)
            else if utf8Size b0 = 3 then
              ((b0 % 16) * 4096 + (b1 % 64) * 64 + b2 % 64, 3)
            else
              match rest3 with
              | [] => (0xfffd, 1)
              | b3 :: _ =>
                if b3 < 0x80 ∨ 0xbf < b3 then (0xfffd, 1)
                else ((b0 % 8) * 262144 + (b1 % 64) * 4096 + (b2 % 64) * 64 + b3 % 64, 4)

/-! ### `lineBuffer` -/

/-- One logical row of text, addressed by visual column. -/
structure lineBuffer where
  runes : List Char
deriving DecidableEq, Repr

/-- `lineBuffer.String()`. -/
def lineBuffer.str (l : lineBuffer) : String := String.mk l.runes

/-- `lineBuffer.visualWidth()`. -/
def lineBuffer.visualWidth (l : lineBuffer) : Nat := visWidth l.runes

/-- Loop body of `runeIndexForColumn`: scan accumulating clamped widths. -/
def runeIndexAux (runes : List Char) (w : Nat) (col : Int) (i : Nat) : Nat :=
  match runes with
  | [] => i
  | ru :: rest =>
    let rw := cw ru
    if (w : Int) ≥ col then i
    else if (w + rw : Int) > col then i
    else runeIndexAux rest (w + rw) col (i + 1)

/-- `lineBuffer.runeIndexForColumn`. -/
def lineBuffer.runeIndexForColumn (l : lineBuffer) (col : Int) : Nat :=
  if col ≤ 0 then 0 else runeIndexAux l.runes 0 col 0

/-- `lineBuffer.WriteAt`: overwrite the character whose cell covers `col`,
or pad with spaces and append when `col` is beyond all existing content. -/
def lineBuffer.writeAt (l : lineBuffer) (col : Int) (ru : Char) : lineBuffer :=
  let col := if col < 0 then 0 else col
  let pos := l.runeIndexForColumn col
  if pos ≥ l.runes.length then
    ⟨l.runes ++ List.replicate (col - (l.visualWidth : Int)).toNat ' ' ++ [ru]⟩
  else ⟨l.runes.set pos ru⟩

/-! ### `tailRenderer` -/

structure tailRenderer where
  history : List String
  active : List lineBuffer
  cursorLine : Int
  cursorCol : Int
  limit : Int
  activeWindow : Int
  pendingUTF8 : List Nat
  pendingCSI : List Nat
deriving DecidableEq, Repr

/-- `newTailRenderer`. -/
def newTailRenderer (limit : Int) : tailRenderer :=
  { history := []
    active := [⟨[]⟩]
    cursorLine := 0
    cursorCol := 0
    limit := limit
    activeWindow := 256
    pendingUTF8 := []
    pendingCSI := [] }

/-- `tailRenderer.reset`. -/
def tailRenderer.reset (r : tailRenderer) : tailRenderer :=
  { r with
    history := []
    active := [⟨[]⟩]
    cursorLine := 0
    cursorCol := 0
    pendingUTF8 := []
    pendingCSI := [] }

/-- `r.active[i]` (in-bounds under the renderer invariant). -/
def getLine (a : List lineBuffer) (i : Int) : lineBuffer := a.getD i.toNat ⟨[]⟩

/-- `r.active[i] = l`. -/
def setLine (a : List lineBuffer) (i : Int) (l : lineBuffer) : List lineBuffer :=
  a.set i.toNat l

/-- `tailRenderer.writeRune`. -/
def tailRenderer.writeRune (r : tailRenderer) (ru : Char) : tailRenderer :=
  let line := getLine r.active r.cursorLine
  let line2 := line.writeAt r.cursorCol ru
  let col := r.cursorCol + (runeWidth ru : Int)
  { r with
    active := setLine r.active r.cursorLine line2
    cursorCol := if col < 0 then 0 else col }

/-- `tailRenderer.moveCursorUp`. -/
def tailRenderer.moveCursorUp (r : tailRenderer) (n : Int) : tailRenderer :=
  let n := if n ≤ 0 then 1 else n
  let cl := r.cursorLine - n
  { r with cursorLine := if cl < 0 then 0 else cl }

/-- `tailRenderer.compactActive`. -/
def tailRenderer.compactActive (r : tailRenderer) : tailRenderer :=
  if (r.active.length : Int) ≤ r.activeWindow then r
  else
    let excess := (r.active.length : Int) - r.activeWindow
    if excess ≤ 0 then r
    else
      let excess := if excess > r.cursorLine then r.cursorLine else excess
      if excess ≤ 0 then r
      else
        let e := excess.toNat
        let history := r.history ++ (r.active.take e).map lineBuffer.str
        let active := r.active.drop e
        let cursorLine := r.cursorLine - excess
        let history :=
          if r.limit > 0 then
            let maxHistory := r.limit - (active.length : Int)
            let maxHistory := if maxHistory < 0 then 0 else maxHistory
            if (history.length : Int) > maxHistory then
              history.drop (history.length - maxHistory.toNat)
            else history
          else history
        { r with history := history, active := active, cursorLine := cursorLine }

/-- `tailRenderer.advanceLine`. -/
def tailRenderer.advanceLine (r : tailRenderer) : tailRenderer :=
  let r :=
    if r.cursorLine = (r.active.length : Int) - 1 then
      { r with active := r.active ++ [⟨[]⟩] }
    else r
  tailRenderer.compactActive { r with cursorLine := r.cursorLine + 1, cursorCol := 0 }

/-- Signed 64-bit wraparound, for Go `int` arithmetic in `strconv.Atoi`. -/
def int64wrap (n : Int) : Int := (n + 2 ^ 63) % 2 ^ 64 - 2 ^ 63

/-- Model of `strconv.Atoi` on a byte string: optional sign then decimal
digits.  Short inputs take Go's fast path, whose `int` arithmetic wraps;
longer inputs go through `ParseInt`, which reports overflow as an error. -/
def atoi (s : List Nat) : Option Int :=
  if s.length = 0 then none
  else
    let neg : Bool := s.headD 0 = 0x2d
    let ds := if s.headD 0 = 0x2d ∨ s.headD 0 = 0x2b then s.drop 1 else s
    if ds.length = 0 then none
    else if ds.all (fun ch => 0x30 ≤ ch ∧ ch ≤ 0x39) then
      let n : Nat := ds.foldl (fun n ch => n * 10 + (ch - 0x30)) 0
      if s.length < 20 then
        some (int64wrap (if neg then -(n : Int) else (n : Int)))
      else if neg then
        if n ≤ 2 ^ 63 then some (-(n : Int)) else none
      else
        if n ≤ 2 ^ 63 - 1 then some (n : Int) else none
    else none

/-- `csiDone`. -/
def csiDone (b : Nat) : Bool := 0x40 ≤ b ∧ b ≤ 0x7e

/-- `tailRenderer.applyCSI`, acting on the byte sequence of the buffered
control sequence; returns the updated renderer and whether the sequence was
recognized. -/
def tailRenderer.applyCSI (r : tailRenderer) (seq : List Nat) : tailRenderer × Bool :=
  if seq.length < 3 ∨ seq.headD 0 ≠ 0x1b ∨ seq.getD 1 0 ≠ 0x5b then (r, false)
  else
    let cmd := seq.getLastD 0
    let params := (seq.drop 2).dropLast
    if cmd = 0x41 then
      let n : Int :=
        if params.length = 0 then 1
        else
          match atoi (params.takeWhile (fun b => b ≠ 0x3b)) with
          | some v => if 0 < v then v else 1
          | none => 1
      (r.moveCursorUp n, true)
    else (r, false)

/-- Body of the `flushPendingUTF8` loop, with explicit fuel.  Every
iteration consumes at least one pending byte (`decodeRune_size_pos`), so
running it with fuel equal to the pending buffer's length executes the Go
loop to completion: if the fuel ever reaches zero the buffer is already
empty and both return immediately. -/
def flushAux : Nat → tailRenderer → Bool → tailRenderer × Bool
  | 0, r, wrote => (r, wrote)
  | fuel + 1, r, wrote =>
    if r.pendingUTF8 = [] then (r, wrote)
    else if fullRune r.pendingUTF8 then
      let d := decodeRune r.pendingUTF8
      let ru := if d.1 = 0xfffd ∧ d.2 = 1 then r.pendingUTF8.headD 0 else d.1
      let r1 := r.writeRune (Char.ofNat ru)
      let r2 := { r1 with pendingUTF8 := r1.pendingUTF8.drop d.2 }
      flushAux fuel r2 true
    else (r, wrote)

/-- Loop of `tailRenderer.flushPendingUTF8`: decode and write complete
runes out of the pending buffer; the returned flag reports whether at
least one rune was written (the Go version ORs this into `*changed`). -/
def tailRenderer.flushPendingUTF8 (r : tailRenderer) : tailRenderer × Bool :=
  flushAux r.pendingUTF8.length r false

/-- One iteration of the `ingest` loop: process one byte, returning the new
renderer, the finalized line (if this byte was a line feed), and whether
the current line changed. -/
def tailRenderer.ingestStep (r : tailRenderer) (b : Nat) : tailRenderer × Option String × Bool :=
  if r.pendingCSI.length > 0 then
    if r.pendingCSI.length = 1 then
      if b ≠ 0x5b then ({ r with pendingCSI := [] }, none, false)
      else ({ r with pendingCSI := r.pendingCSI ++ [b] }, none, false)
    else
      let r := { r with pendingCSI := r.pendingCSI ++ [b] }
      if csiDone b then
        let ra := r.applyCSI r.pendingCSI
        ({ ra.1 with pendingCSI := [] }, none, ra.2)
      else (r, none, false)
  else if b = 0x1b then
    let rf := r.flushPendingUTF8
    ({ rf.1 with pendingCSI := [0x1b] }, none, rf.2)
  else if b = 0x0d then
    let rf := r.flushPendingUTF8
    ({ rf.1 with cursorCol := 0 }, none, true)
  else if b = 0x0a then
    let rf := r.flushPendingUTF8
    let line := (getLine rf.1.active rf.1.cursorLine).str
    (rf.1.advanceLine, some line, true)
  else
    let rf := ({ r with pendingUTF8 := r.pendingUTF8 ++ [b] }).flushPendingUTF8
    (rf.1, none, rf.2)

/-- `tailRenderer.ingest`: fold `ingestStep` over the data, accumulating
newly finalized lines and the current-changed flag. -/
def tailRenderer.ingest (r : tailRenderer) (data : List Nat) :
    tailRenderer × List String × Bool :=
  data.foldl
    (fun acc b =>
      let s := acc.1.ingestStep b
      (s.1, acc.2.1 ++ s.2.1.toList, acc.2.2 || s.2.2))
    (r, [], false)

/-- `tailRenderer.logicalLines`. -/
def tailRenderer.logicalLines (r : tailRenderer) : List String :=
  let kept := (r.active.reverse.dropWhile (fun lb => lb.runes.isEmpty)).reverse
  let out := r.history ++ kept.map lineBuffer.str
  if r.limit > 0 ∧ (out.length : Int) > r.limit then
    out.drop (out.length - r.limit.toNat)
  else out

/-- `tailRenderer.content`. -/
def tailRenderer.content (r : tailRenderer) : String :=
  String.intercalate "\n" r.logicalLines

/-- `tailRenderer.currentLine`. -/
def tailRenderer.currentLine (r : tailRenderer) : String :=
  if r.active.length = 0 then "" else (getLine r.active r.cursorLine).str

/-- Loop of `wrapRunes`, on the rune list, with the builder (`cur`, its
visual width `w`) and output accumulator made explicit. -/
def wrapAux (width : Int) : List Char → List Char → Nat → List (List Char) → List (List Char)
  | [], cur, _, out => if cur.length > 0 ∨ out.length = 0 then out ++ [cur] else out
  | ru :: rest, cur, w, out =>
    let rw := cw ru
    let fl := if (↑(w + rw) : Int) > width ∧ cur.length > 0 then
        (out ++ [cur], ([] : List Char), 0)
      else (out, cur, w)
    let cur2 := fl.2.1 ++ [ru]
    let w2 := fl.2.2 + rw
    if (w2 : Int) ≥ width then wrapAux width rest [] 0 (fl.1 ++ [cur2])
    else wrapAux width rest cur2 w2 fl.1

/-- `wrapRunes`. -/
def wrapRunes (line : String) (width : Int) : List String :=
  if width ≤ 0 then [line]
  else if line = "" then [""]
  else (wrapAux width line.toList [] 0 []).map String.mk

/-- `tailRenderer.contentWrapped`. -/
def tailRenderer.contentWrapped (r : tailRenderer) (width : Int) : String :=
  let lines := r.logicalLines
  if width ≤ 0 then String.intercalate "\n" lines
  else String.intercalate "\n" (lines.flatMap (fun l => wrapRunes l width))

/-! ### File tail follower (`logFollower`) -/

/-- The two stream labels. -/
inductive streamLabel where
  | out
  | err
deriving DecidableEq, Repr

/-- `streamLabel` rendered as in Go (`"OUT"` / `"ERR"`). -/
def streamLabel.str : streamLabel → String
  | .out => "OUT"
  | .err => "ERR"

/-- `streamChunk`. -/
structure streamChunk where
  label : streamLabel
  newLines : List String
  currentLine : String
  currentChanged : Bool
  missing : Bool
deriving DecidableEq, Repr

/-- `initialTailBytes = 1024 * 1024`. -/
def initialTailBytes : Int := 1024 * 1024

/-- `renderLineLimit = 20000`. -/
def renderLineLimit : Int := 20000

structure logFollower where
  path : String
  offset : Int
  initialized : Bool
  renderer : tailRenderer
  missing : Bool
deriving DecidableEq, Repr

/-- `newLogFollower`. -/
def newLogFollower (path : String) : logFollower :=
  { path := path
    offset := 0
    initialized := false
    renderer := newTailRenderer renderLineLimit
    missing := false }

/-- `logFollower.reset`. -/
def logFollower.reset (f : logFollower) (path : String) : logFollower :=
  { f with
    path := path
    offset := 0
    initialized := false
    renderer := f.renderer.reset
    missing := false }

/-- One poll's view of the file system: the file is absent, `os.Stat` fails
for another reason, or the file is present with the given byte content and
flags saying whether `os.Open` and the seek/read pair succeed. -/
inductive fileView where
  | absent
  | statFail
  | present (content : List Nat) (openOk : Bool) (readOk : Bool)

/-- The buffer the bootstrap read ingests, with the byte budget explicit:
seek to `max 0 (size - budget)`, read to the end, and if the seek start was
non-zero drop through the first line feed provided one occurs before the
buffer's last byte (`idx >= 0 && idx+1 < len(buf)` in the source). -/
def bootstrapBuf (budget : Int) (content : List Nat) : List Nat :=
  let size : Int := content.length
  let start : Int := if size > budget then size - budget else 0
  let buf := content.drop start.toNat
  if start > 0 then
    match buf.findIdx? (fun b => b = 0x0a) with
    | some idx => if idx + 1 < buf.length then buf.drop (idx + 1) else buf
    | none => buf
  else buf

/-- `logFollower.poll`, as a pure function of the file-system view.
Returns the updated follower, the chunk, and `some ()` when the Go version
returns a non-nil error. -/
def logFollower.poll (f : logFollower) (label : streamLabel) (v : fileView) :
    logFollower × streamChunk × Option Unit :=
  let chunk : streamChunk :=
    { label := label, newLines := [], currentLine := ""
      currentChanged := false, missing := false }
  match v with
  | .absent => ({ f with missing := true }, { chunk with missing := true }, none)
  | .statFail => (f, chunk, some ())
  | .present content openOk readOk =>
    let size : Int := content.length
    let f :=
      if size < f.offset then
        { f with offset := 0, initialized := false, renderer := f.renderer.reset }
      else f
    if !openOk then (f, chunk, some ())
    else if !f.initialized then
      if !readOk then (f, chunk, some ())
      else
        let buf := bootstrapBuf initialTailBytes content
        let res := f.renderer.ingest buf
        ({ f with renderer := res.1, offset := size, initialized := true, missing := false },
         { chunk with
            newLines := res.2.1
            currentChanged := res.2.2
            currentLine := res.1.currentLine },
         none)
    else if size = f.offset then
      (f, { chunk with currentLine := f.renderer.currentLine, missing := false }, none)
    else
      if !readOk then (f, chunk, some ())
      else
        let buf := content.drop f.offset.toNat
        let res := f.renderer.ingest buf
        ({ f with renderer := res.1, offset := size, missing := false },
         { chunk with
            newLines := res.2.1
            currentChanged := res.2.2
            currentLine := res.1.currentLine },
         none)

/-- `logFollower.content`. -/
def logFollower.content (f : logFollower) (width : Int) : String :=
  f.renderer.contentWrapped width

/-! ### `mergedBuffer` -/

structure mergedBuffer where
  lines : List String
  limit : Int
  outCurrent : String
  errCurrent : String
deriving DecidableEq, Repr

/-- `newMergedBuffer`. -/
def newMergedBuffer (limit : Int) : mergedBuffer :=
  { lines := [], limit := limit, outCurrent := "", errCurrent := "" }

/-- `mergedBuffer.reset`. -/
def mergedBuffer.reset (m : mergedBuffer) : mergedBuffer :=
  { m with lines := [], outCurrent := "", errCurrent := "" }

/-- `mergedBuffer.addLine`. -/
def mergedBuffer.addLine (m : mergedBuffer) (label : streamLabel) (line : String) :
    mergedBuffer :=
  let lines := m.lines ++ ["[" ++ label.str ++ "] " ++ line]
  if (lines.length : Int) > m.limit then
    { m with lines := lines.drop (lines.length - m.limit.toNat) }
  else { m with lines := lines }

/-- `mergedBuffer.applyChunk`. -/
def mergedBuffer.applyChunk (m : mergedBuffer) (chunk : streamChunk) : mergedBuffer :=
  let m := chunk.newLines.foldl (fun m line => m.addLine chunk.label line) m
  if chunk.currentChanged then
    match chunk.label with
    | .out => { m with outCurrent := chunk.currentLine }
    | .err => { m with errCurrent := chunk.currentLine }
  else m

/-- `mergedBuffer.content`. -/
def mergedBuffer.content (m : mergedBuffer) : String :=
  let out := m.lines
  let out := if m.outCurrent ≠ "" then out ++ ["[OUT] " ++ m.outCurrent] else out
  let out := if m.errCurrent ≠ "" then out ++ ["[ERR] " ++ m.errCurrent] else out
  String.intercalate "\n" out

/-! ### UTF-8 encoding (for stating round-trip properties over texts) -/

/-- Standard UTF-8 encoding of one character. -/
def encodeChar (c : Char) : List Nat :=
  let v := c.toNat
  if v < 0x80 then [v]
  else if v < 0x800 then [0xc0 + v / 64, 0x80 + v % 64]
  else if v < 0x10000 then
    [0xe0 + v / 4096, 0x80 + (v / 64) % 64, 0x80 + v % 64]
  else
    [0xf0 + v / 262144, 0x80 + (v / 4096) % 64, 0x80 + (v / 64) % 64, 0x80 + v % 64]

/-- UTF-8 encoding of a character sequence. -/
def utf8Encode (cs : List Char) : List Nat := cs.flatMap encodeChar

/-! ### Helper definitions used only to state properties -/

/-- Feed a sequence of chunks to `ingest`, one call per chunk, keeping the
interpreter state. -/
def ingestAll (r : tailRenderer) (chunks : List (List Nat)) : tailRenderer :=
  chunks.foldl (fun r c => (r.ingest c).1) r

/-- The chunk `poll` starts from: label only, everything else empty. -/
def emptyChunk (label : streamLabel) : streamChunk :=
  { label := label, newLines := [], currentLine := ""
    currentChanged := false, missing := false }

/-- The bootstrap buffer starts at a clean line boundary of the file: it is
a suffix of the content whose preceding byte, if any, is a line feed. -/
def cleanBoundary (budget : Int) (content : List Nat) : Prop :=
  ∃ k ∈ List.range (content.length + 1),
    bootstrapBuf budget content = content.drop k ∧
    (k = 0 ∨ content.getD (k - 1) 0 = 0x0a)

instance (budget : Int) (content : List Nat) : Decidable (cleanBoundary budget content) := by
  unfold cleanBoundary; infer_instance

/-- Inductive invariant of the stream interpreter for a positive line
limit: the configuration fields are fixed, the active window stays within
`activeWindow = 256` rows, the cursor is in bounds, and the history stays
within what compaction trims it to. -/
def RInv (limit : Int) (r : tailRenderer) : Prop :=
  r.limit = limit ∧ r.activeWindow = 256 ∧
  1 ≤ r.active.length ∧ (r.active.length : Int) ≤ 256 ∧
  0 ≤ r.cursorLine ∧ r.cursorLine < (r.active.length : Int) ∧
  0 ≤ r.cursorCol ∧
  (r.history.length : Int) ≤ max 0 (limit - 256)

/-- Inductive invariant of the merged buffer: non-negative limit, line
count within the limit, every stored entry label-prefixed. -/
def mbInv (m : mergedBuffer) : Prop :=
  0 ≤ m.limit ∧ (m.lines.length : Int) ≤ m.limit ∧
  ∀ l ∈ m.lines, ∃ lab txt, l = "[" ++ streamLabel.str lab ++ "] " ++ txt

/-- Longest prefix of `cs` whose clamped visual width, added to `w`, stays
within `W` (the first segment the wrapping loop emits). -/
def takeFit (W : Nat) (w : Nat) : List Char → List Char
  | [] => []
  | c :: rest => if w + cw c ≤ W then c :: takeFit W (w + cw c) rest else []

/-- Reference greedy decomposition: repeatedly take the longest fitting
prefix.  Used to reason about `wrapAux`. -/
def greedySplit (W : Nat) (cs : List Char) : List (List Char) :=
  if h : cs = [] then []
  else
    let t := takeFit W 0 cs
    if ht : t.length = 0 then [cs]
    else t :: greedySplit W (cs.drop t.length)
termination_by cs.length
decreasing_by
  have h1 : cs.length ≠ 0 := fun hh => h (List.length_eq_zero.mp hh)
  have h2 : (takeFit W 0 cs).length ≠ 0 := ht
  simp only [List.length_drop]
  omega

/-- State of the renderer at a clean line boundary: the finished lines read
back as `done` (split between `history` and the already-rendered prefix of
`active`), the cursor sits at column 0 of the final, empty row, and no
bytes are pending. -/
def freshState (limit : Int) (done : List String) (r : tailRenderer) : Prop :=
  ∃ pre : List lineBuffer,
    r.active = pre ++ [⟨[]⟩] ∧
    r.history ++ pre.map lineBuffer.str = done ∧
    r.cursorLine = (r.active.length : Int) - 1 ∧
    r.cursorCol = 0 ∧
    r.pendingUTF8 = [] ∧
    r.pendingCSI = [] ∧
    r.limit = limit ∧
    r.activeWindow = 256 ∧
    r.active.length ≤ 256

example :
    ((newTailRenderer 100).ingest
      (utf8Encode "progress 10%\rprogress 20%\rprogress 30%".toList)).1.content
      = "progress 30%" := by decide

example :
    ((newTailRenderer 100).ingest (utf8Encode "abcdef\rxy".toList)).1.content
      = "xycdef" := by decide

example :
    ((newTailRenderer 100).ingest
      (utf8Encode "line 1\nline 2\n".toList ++ [0x1b, 0x5b, 0x41] ++
        utf8Encode "updated line 2".toList)).1.content
      = "line 1\nupdated line 2" := by decide

example :
    ((newTailRenderer 100).ingest [0xe2]).1.content = "" ∧
    (((newTailRenderer 100).ingest [0xe2]).1.ingest [0x96, 0x88]).1.content
      = "█" := by decide

example :
    ((newTailRenderer 100).ingest (utf8Encode "123456789".toList)).1.contentWrapped 5
      = "12345\n6789" := by decide

example :
    ((newTailRenderer 100).ingest (utf8Encode "hello".toList)).1.content = "hello" ∧
    (((newTailRenderer 100).ingest (utf8Encode "hello".toList)).1.ingest
        (utf8Encode " world\nnext".toList)).1.content = "hello world\nnext" := by decide

/-! ### Basic width and decoding lemmas -/

theorem cw_pos (c : Char) : 1 ≤ cw c := by
  unfold cw; dsimp only; split <;> omega

@[simp] theorem visWidth_nil : visWidth [] = 0 := rfl

@[simp] theorem visWidth_cons (c : Char) (cs : List Char) :
    visWidth (c :: cs) = cw c + visWidth cs := rfl

@[simp] theorem visWidth_append (a b : List Char) :
    visWidth (a ++ b) = visWidth a + visWidth b := by
  induction a with
  | nil => simp
  | cons c cs ih => simp [ih]; omega

theorem decodeRune_size_pos (p : List Nat) (h : p ≠ []) :
    1 ≤ (decodeRune p).2 := by
  match p with
  | [] => exact absurd rfl h
  | [b0] => simp only [decodeRune]; split_ifs <;> simp
  | [b0, b1] => simp only [decodeRune]; split_ifs <;> simp
  | [b0, b1, b2] => simp only [decodeRune]; split_ifs <;> simp
  | b0 :: b1 :: b2 :: b3 :: rest => simp only [decodeRune]; split_ifs <;> simp

/-! ### `ingest` as a fold: accumulator and append lemmas -/

theorem ingest_foldl_acc (data : List Nat) (r : tailRenderer) (nl : List String) (ch : Bool) :
    data.foldl
      (fun acc b =>
        let s := acc.1.ingestStep b
        (s.1, acc.2.1 ++ s.2.1.toList, acc.2.2 || s.2.2))
      (r, nl, ch)
      = ((r.ingest data).1, nl ++ (r.ingest data).2.1, ch || (r.ingest data).2.2) := by
  induction data generalizing r nl ch with
  | nil => simp [tailRenderer.ingest]
  | cons b rest ih =>
    simp only [tailRenderer.ingest, List.foldl_cons, List.nil_append, Bool.false_or] at *
    rw [ih ((r.ingestStep b).1) ((r.ingestStep b).2.1.toList) ((r.ingestStep b).2.2),
        ih ((r.ingestStep b).1) (nl ++ (r.ingestStep b).2.1.toList)
          (ch || (r.ingestStep b).2.2)]
    simp [List.append_assoc, Bool.or_assoc]

theorem ingest_append (r : tailRenderer) (a b : List Nat) :
    r.ingest (a ++ b) =
      (((r.ingest a).1.ingest b).1,
       (r.ingest a).2.1 ++ ((r.ingest a).1.ingest b).2.1,
       (r.ingest a).2.2 || ((r.ingest a).1.ingest b).2.2) := by
  conv_lhs => rw [tailRenderer.ingest, List.foldl_append]
  rw [show (a.foldl
      (fun acc b =>
        let s := acc.1.ingestStep b
        (s.1, acc.2.1 ++ s.2.1.toList, acc.2.2 || s.2.2))
      ((r, [], false) : tailRenderer × List String × Bool)) = r.ingest a from rfl]
  have h1 : r.ingest a = ((r.ingest a).1, (r.ingest a).2.1, (r.ingest a).2.2) := rfl
  rw [h1, ingest_foldl_acc]

theorem ingestAll_eq_flatten (r : tailRenderer) (chunks : List (List Nat)) :
    ingestAll r chunks = (r.ingest chunks.flatten).1 := by
  induction chunks generalizing r with
  | nil => simp [ingestAll, tailRenderer.ingest]
  | cons c rest ih =>
    simp only [ingestAll, List.foldl_cons, List.flatten_cons] at *
    rw [ih (r.ingest c).1, ingest_append]

/-! ### C10: ingesting the empty byte sequence is an identity -/

/-- **C10**: for every interpreter state, `ingest` of the empty byte
sequence returns no newly finalized lines and `currentChanged = false`,
and leaves the entire interpreter state (history, active rows, cursor
position, pending byte buffers) unchanged. -/
theorem ingest_empty_identity (r : tailRenderer) : r.ingest [] = (r, [], false) := rfl

/-! ### C1: chunk-invariance of `ingest` -/

/-- **C1**: for every byte sequence and every way of splitting it into
consecutive chunks, feeding the chunks to `ingest` one after another on a
fresh interpreter yields the same `content()` as feeding the whole
sequence in a single call, provided all bytes have arrived (no partial
control sequence or partial multi-byte character still pending).  The
underlying state equality holds unconditionally. -/
theorem chunk_invariance (limit : Int) (chunks : List (List Nat))
    (hU : (ingestAll (newTailRenderer limit) chunks).pendingUTF8 = [])
    (hC : (ingestAll (newTailRenderer limit) chunks).pendingCSI = []) :
    (ingestAll (newTailRenderer limit) chunks).content
      = ((newTailRenderer limit).ingest chunks.flatten).1.content := by
  rw [ingestAll_eq_flatten]

theorem chunk_invariance_witness :
    (ingestAll (newTailRenderer 100) [[104], [101, 10]]).pendingUTF8 = [] ∧
    (ingestAll (newTailRenderer 100) [[104], [101, 10]]).pendingCSI = [] ∧
    (ingestAll (newTailRenderer 100) [[104], [101, 10]]).content
      = ((newTailRenderer 100).ingest ([[104], [101, 10]] : List (List Nat)).flatten).1.content :=
  ⟨by decide, by decide, chunk_invariance 100 [[104], [101, 10]] (by decide) (by decide)⟩

/-! ### C3: a non-`[` byte after the escape introducer -/

/-- **C3, counterexample**: after an escape introducer, a line feed is NOT
handled as in the normal state: the code consumes and drops it (no line is
finalized), whereas in the normal state it finalizes the (empty) current
line. -/
theorem escape_pending_cex :
    ((newTailRenderer 100).ingest [0x1b, 0x0a]).2.1 = [] ∧
    ((newTailRenderer 100).ingest [0x0a]).2.1 = [""] := by decide

/-- **C3, amended**: in the escape-pending state, if the next ingested
byte is not `[`, the escape attempt is abandoned by dropping both the
introducer and this byte: the byte is consumed with no other effect, and
normal processing resumes only from the following byte. -/
theorem escape_pending_drops_byte (r : tailRenderer) (b : Nat)
    (h1 : r.pendingCSI.length = 1) (hb : b ≠ 0x5b) :
    r.ingestStep b = ({ r with pendingCSI := [] }, none, false) := by
  simp [tailRenderer.ingestStep, h1, hb]

theorem escape_pending_drops_byte_witness :
    ((newTailRenderer 100).ingest [0x1b]).1.pendingCSI.length = 1 ∧
    (65 : Nat) ≠ 0x5b ∧
    ((newTailRenderer 100).ingest [0x1b]).1.ingestStep 65
      = ({ ((newTailRenderer 100).ingest [0x1b]).1 with pendingCSI := [] }, none, false) :=
  ⟨by decide, by decide, escape_pending_drops_byte _ 65 (by decide) (by decide)⟩

/-! ### C8: absence is not an error; real I/O failures are -/

/-- **C8**: polling an absent path returns a chunk with `Missing = true`,
no newly finalized lines, and no error; a stat failure other than absence,
an open failure, or a seek/read failure (whenever a read is actually
performed) each yield an error alongside an otherwise-empty chunk. -/
theorem poll_error_taxonomy (f : logFollower) (label : streamLabel)
    (content : List Nat) (rOk : Bool) :
    (f.poll label .absent
       = ({ f with missing := true }, { emptyChunk label with missing := true }, none)) ∧
    (f.poll label .statFail = (f, emptyChunk label, some ())) ∧
    ((f.poll label (.present content false rOk)).2 = (emptyChunk label, some ())) ∧
    (f.initialized = false ∨ (content.length : Int) ≠ f.offset →
      (f.poll label (.present content true false)).2 = (emptyChunk label, some ())) := by
  refine ⟨rfl, rfl, ?_, ?_⟩
  · by_cases hs : (content.length : Int) < f.offset <;>
      simp [logFollower.poll, hs, emptyChunk]
  · intro h
    by_cases hs : (content.length : Int) < f.offset
    · simp [logFollower.poll, hs, emptyChunk]
    · by_cases hi : f.initialized
      · have hne : ¬((content.length : Int) = f.offset) := by
          rcases h with h | h
          · rw [hi] at h; exact Bool.noConfusion h
          · exact h
        simp [logFollower.poll, hs, hi, hne, emptyChunk]
      · simp [logFollower.poll, hs, hi, emptyChunk]

theorem poll_error_taxonomy_witness :
    ((newLogFollower "p").poll .out .absent
       = ({ newLogFollower "p" with missing := true },
          { emptyChunk .out with missing := true }, none)) ∧
    ((newLogFollower "p").poll .out .statFail = (newLogFollower "p", emptyChunk .out, some ())) ∧
    (((newLogFollower "p").poll .out (.present [97] false true)).2 = (emptyChunk .out, some ())) ∧
    (((newLogFollower "p").poll .out (.present [97] true false)).2 = (emptyChunk .out, some ())) := by
  have h := poll_error_taxonomy (newLogFollower "p") .out [97] true
  exact ⟨h.1, h.2.1, h.2.2.1, h.2.2.2 (Or.inl rfl)⟩

/-! ### C9: the merged buffer is capped and label-prefixed -/

theorem addLine_limit (m : mergedBuffer) (lab : streamLabel) (line : String) :
    (m.addLine lab line).limit = m.limit := by
  unfold mergedBuffer.addLine
  dsimp only
  split <;> rfl

theorem applyChunk_limit (m : mergedBuffer) (c : streamChunk) :
    (m.applyChunk c).limit = m.limit := by
  unfold mergedBuffer.applyChunk
  dsimp only
  have hf : ∀ (ls : List String) (m : mergedBuffer),
      (ls.foldl (fun m line => m.addLine c.label line) m).limit = m.limit := by
    intro ls
    induction ls with
    | nil => intro m; rfl
    | cons x xs ih => intro m; rw [List.foldl_cons, ih, addLine_limit]
  split
  · split <;> exact hf _ _
  · exact hf _ _

theorem mbInv_addLine (m : mergedBuffer) (lab : streamLabel) (line : String)
    (h : mbInv m) : mbInv (m.addLine lab line) := by
  obtain ⟨h0, h1, h2⟩ := h
  unfold mergedBuffer.addLine
  dsimp only
  split
  · rename_i hgt
    refine ⟨h0, ?_, ?_⟩
    · simp only [List.length_drop, List.length_append, List.length_cons,
        List.length_nil] at *
      omega
    · intro l hl
      rcases List.mem_append.mp (List.mem_of_mem_drop hl) with hm | hm
      · exact h2 l hm
      · simp only [List.mem_singleton] at hm
        exact ⟨lab, line, hm⟩
  · rename_i hle
    refine ⟨h0, ?_, ?_⟩
    · simp only [List.length_append, List.length_cons, List.length_nil] at *
      omega
    · intro l hl
      rcases List.mem_append.mp hl with hm | hm
      · exact h2 l hm
      · simp only [List.mem_singleton] at hm
        exact ⟨lab, line, hm⟩

theorem mbInv_applyChunk (m : mergedBuffer) (c : streamChunk) (h : mbInv m) :
    mbInv (m.applyChunk c) := by
  unfold mergedBuffer.applyChunk
  dsimp only
  have hf : ∀ (ls : List String) (m : mergedBuffer), mbInv m →
      mbInv (ls.foldl (fun m line => m.addLine c.label line) m) := by
    intro ls
    induction ls with
    | nil => intro m hm; exact hm
    | cons x xs ih => intro m hm; exact ih _ (mbInv_addLine _ _ _ hm)
  split
  · split <;> exact hf _ _ h
  · exact hf _ _ h

/-- **C9**: for every merged buffer created with a non-negative limit and
every sequence of `applyChunk` calls, the number of stored finalized lines
never exceeds the limit, and every stored entry is a label-prefixed line
of the form `"[LABEL] text"`. -/
theorem merged_buffer_capped (limit : Int) (chunks : List streamChunk) (hl : 0 ≤ limit) :
    ((chunks.foldl mergedBuffer.applyChunk (newMergedBuffer limit)).lines.length : Int)
        ≤ limit ∧
    ∀ l ∈ (chunks.foldl mergedBuffer.applyChunk (newMergedBuffer limit)).lines,
      ∃ lab txt, l = "[" ++ streamLabel.str lab ++ "] " ++ txt := by
  have h0 : mbInv (newMergedBuffer limit) := by
    refine ⟨hl, by simpa [newMergedBuffer] using hl, by simp [newMergedBuffer]⟩
  have hinv : ∀ (cs : List streamChunk) (m : mergedBuffer), mbInv m →
      mbInv (cs.foldl mergedBuffer.applyChunk m) := by
    intro cs
    induction cs with
    | nil => intro m hm; exact hm
    | cons c rest ih => intro m hm; exact ih _ (mbInv_applyChunk _ _ hm)
  have hlim : ∀ (cs : List streamChunk) (m : mergedBuffer),
      (cs.foldl mergedBuffer.applyChunk m).limit = m.limit := by
    intro cs
    induction cs with
    | nil => intro m; rfl
    | cons c rest ih => intro m; rw [List.foldl_cons, ih, applyChunk_limit]
  have hres := hinv chunks _ h0
  have heq : (chunks.foldl mergedBuffer.applyChunk (newMergedBuffer limit)).limit = limit :=
    hlim chunks (newMergedBuffer limit)
  exact ⟨le_trans hres.2.1 (le_of_eq heq), hres.2.2⟩

theorem merged_buffer_capped_witness :
    (0 : Int) ≤ 1 ∧
    ((([streamChunk.mk .out ["a", "b"] "x" true false] :
        List streamChunk).foldl mergedBuffer.applyChunk (newMergedBuffer 1)).lines.length : Int)
        ≤ 1 ∧
    ∀ l ∈ (([streamChunk.mk .out ["a", "b"] "x" true false] :
        List streamChunk).foldl mergedBuffer.applyChunk (newMergedBuffer 1)).lines,
      ∃ lab txt, l = "[" ++ streamLabel.str lab ++ "] " ++ txt :=
  ⟨by decide,
   merged_buffer_capped 1 [streamChunk.mk .out ["a", "b"] "x" true false] (by decide)⟩


/-! ### C7: a shrink-observing poll versus a first-time poll -/

theorem poll_shrink (f : logFollower) (label : streamLabel)
    (content : List Nat) (oOk rOk : Bool)
    (hs : (content.length : Int) < f.offset) :
    f.poll label (.present content oOk rOk)
      = ({ f with
            offset := 0
            initialized := false
            renderer := f.renderer.reset }).poll label (.present content oOk rOk) := by
  have h1 : ((content.length : Int) < f.offset) = True := eq_true hs
  have h2 : ((content.length : Int) < (0 : Int)) = False := eq_false (by omega)
  simp only [logFollower.poll, h1, h2, if_true, if_false]

theorem reset_eq_new (r : tailRenderer) (hl : r.limit = renderLineLimit)
    (hw : r.activeWindow = 256) : r.reset = newTailRenderer renderLineLimit := by
  obtain ⟨rh, ra, rcl, rcc, rlim, raw, rpu, rpc⟩ := r
  simp only at hl hw
  subst hl; subst hw
  rfl

theorem poll_bootstrap_eq (g1 g2 : logFollower) (label : streamLabel)
    (content : List Nat) (oOk rOk : Bool)
    (h1 : g1.initialized = false) (h2 : g2.initialized = false)
    (ho1 : g1.offset = 0) (ho2 : g2.offset = 0)
    (hp : g1.path = g2.path) (hr : g1.renderer = g2.renderer) :
    (g1.poll label (.present content oOk rOk)).2
        = (g2.poll label (.present content oOk rOk)).2 ∧
    ((g1.poll label (.present content oOk rOk)).2.2 = none →
      (g1.poll label (.present content oOk rOk)).1
        = (g2.poll label (.present content oOk rOk)).1) := by
  obtain ⟨p1, o1, i1, r1, m1⟩ := g1
  obtain ⟨p2, o2, i2, r2, m2⟩ := g2
  simp only at h1 h2 ho1 ho2 hp hr
  subst h1; subst h2; subst ho1; subst ho2; subst hp; subst hr
  have hz : ((content.length : Int) < (0 : Int)) = False := eq_false (by omega)
  cases oOk <;> cases rOk <;>
    simp [logFollower.poll, hz]

/-- **C7, counterexample**: a follower that had recorded `missing = true`
(file deleted after a successful poll) and then observes a shrink while
`os.Open` fails does NOT end in the same state as a fresh follower would:
the shrink reset does not clear the `missing` flag, while a fresh follower
starts with it `false`. -/
theorem shrink_reset_cex :
    ((logFollower.mk "p" 5 true (newTailRenderer renderLineLimit) true).poll .out
        (.present [] false false)).1
      ≠ ((newLogFollower "p").poll .out (.present [] false false)).1 := by decide

/-- **C7, amended**: for every follower state with a recorded offset
(carrying the construction-time renderer configuration) and every file
whose size is smaller than that offset, the poll that observes the shrink
returns the same chunk and the same error as a first-time poll of that
file by a freshly created follower; and whenever that poll succeeds (no
I/O error) it also leaves the follower in exactly the state the fresh
follower's poll would. -/
theorem shrink_polls_as_fresh (f : logFollower) (label : streamLabel)
    (content : List Nat) (oOk rOk : Bool)
    (hlim : f.renderer.limit = renderLineLimit)
    (hwin : f.renderer.activeWindow = 256)
    (hshrink : (content.length : Int) < f.offset) :
    (f.poll label (.present content oOk rOk)).2
        = ((newLogFollower f.path).poll label (.present content oOk rOk)).2 ∧
    ((f.poll label (.present content oOk rOk)).2.2 = none →
      (f.poll label (.present content oOk rOk)).1
        = ((newLogFollower f.path).poll label (.present content oOk rOk)).1) := by
  rw [poll_shrink f label content oOk rOk hshrink]
  exact poll_bootstrap_eq _ _ label content oOk rOk rfl rfl rfl rfl rfl
    (reset_eq_new f.renderer hlim hwin)

theorem shrink_polls_as_fresh_witness :
    (logFollower.mk "p" 3 true (newTailRenderer renderLineLimit) false).renderer.limit
        = renderLineLimit ∧
    (logFollower.mk "p" 3 true (newTailRenderer renderLineLimit) false).renderer.activeWindow
        = 256 ∧
    ((([97, 10] : List Nat).length : Int)
        < (logFollower.mk "p" 3 true (newTailRenderer renderLineLimit) false).offset) ∧
    (((logFollower.mk "p" 3 true (newTailRenderer renderLineLimit) false).poll .out
        (.present [97, 10] true true)).2
      = ((newLogFollower "p").poll .out (.present [97, 10] true true)).2 ∧
    (((logFollower.mk "p" 3 true (newTailRenderer renderLineLimit) false).poll .out
        (.present [97, 10] true true)).2.2 = none →
      ((logFollower.mk "p" 3 true (newTailRenderer renderLineLimit) false).poll .out
        (.present [97, 10] true true)).1
        = ((newLogFollower "p").poll .out (.present [97, 10] true true)).1)) :=
  ⟨rfl, rfl, by decide,
   shrink_polls_as_fresh (logFollower.mk "p" 3 true (newTailRenderer renderLineLimit) false)
     .out [97, 10] true true rfl rfl (by decide)⟩

/-! ### C4: the bootstrap read and line boundaries -/

/-- **C4, counterexample**: a file of 6 `a` bytes polled with byte budget 4
satisfies the claim's hypotheses (size exceeds the budget), yet the
bootstrap buffer does not start at a clean line boundary: the tail window
contains no line feed and is ingested as a truncated fragment. -/
theorem bootstrap_clean_boundary_cex :
    (0 : Int) < 4 ∧ ((List.replicate 6 97).length : Int) > 4 ∧
    ¬ cleanBoundary 4 (List.replicate 6 97) := by decide

/-- **C4, amended**: when the size exceeds the budget, the bootstrap read
seeks to `size - budget`; provided the read window contains a line feed at
a non-final position (the source guard `idx >= 0 && idx+1 < len(buf)`),
the bytes up to and including the first such line feed are discarded, so
the ingested buffer starts at a clean line boundary.  Otherwise the window
is ingested unmodified and may begin mid-line. -/
theorem bootstrap_clean_boundary (budget : Int) (content : List Nat) (idx : Nat)
    (hb : 0 < budget)
    (hsz : (content.length : Int) > budget)
    (hfind : (content.drop (content.length - budget.toNat)).findIdx? (fun b => b = 0x0a)
        = some idx)
    (hmid : idx + 1 < (content.drop (content.length - budget.toNat)).length) :
    bootstrapBuf budget content
        = content.drop (content.length - budget.toNat + (idx + 1)) ∧
    content.getD (content.length - budget.toNat + idx) 0 = 0x0a ∧
    cleanBoundary budget content := by
  have hlen : (content.drop (content.length - budget.toNat)).length
      = content.length - (content.length - budget.toNat) := List.length_drop _ _
  have hs : ((content.length : Int) - budget).toNat = content.length - budget.toNat := by
    omega
  have hbuf : bootstrapBuf budget content
      = content.drop (content.length - budget.toNat + (idx + 1)) := by
    unfold bootstrapBuf
    dsimp only
    rw [if_pos hsz, hs, if_pos (by omega : ((content.length : Int) - budget) > 0), hfind]
    dsimp only
    rw [if_pos hmid, List.drop_drop]
  have hget : content.getD (content.length - budget.toNat + idx) 0 = 0x0a := by
    have := List.findIdx?_eq_some_iff_getElem.mp hfind
    obtain ⟨hlt, hp, _⟩ := this
    have h10 : (content.drop (content.length - budget.toNat))[idx] = 0x0a := by
      have := hp
      simpa using this
    rw [List.getElem_drop] at h10
    have hbound : content.length - budget.toNat + idx < content.length := by omega
    rw [List.getD_eq_getElem _ _ hbound]
    exact h10
  refine ⟨hbuf, hget, ?_⟩
  refine ⟨content.length - budget.toNat + (idx + 1), ?_, hbuf, Or.inr ?_⟩
  · rw [List.mem_range]
    omega
  · have : content.length - budget.toNat + (idx + 1) - 1
        = content.length - budget.toNat + idx := by omega
    rw [this]
    exact hget

theorem bootstrap_clean_boundary_witness :
    (0 : Int) < 4 ∧
    ((([97, 97, 10, 99, 100, 10, 102] : List Nat).length : Int) > 4) ∧
    (([97, 97, 10, 99, 100, 10, 102] : List Nat).drop 3).findIdx? (fun b => b = 0x0a)
        = some 2 ∧
    (2 + 1 < (([97, 97, 10, 99, 100, 10, 102] : List Nat).drop 3).length) ∧
    (bootstrapBuf 4 [97, 97, 10, 99, 100, 10, 102]
        = ([97, 97, 10, 99, 100, 10, 102] : List Nat).drop 6 ∧
     ([97, 97, 10, 99, 100, 10, 102] : List Nat).getD 5 0 = 0x0a ∧
     cleanBoundary 4 [97, 97, 10, 99, 100, 10, 102]) :=
  ⟨by decide, by decide, by decide, by decide,
   bootstrap_clean_boundary 4 [97, 97, 10, 99, 100, 10, 102] 2
     (by decide) (by decide) (by decide) (by decide)⟩

/-! ### C2: renderer state invariants -/

theorem RInv_writeRune (limit : Int) (r : tailRenderer) (ru : Char)
    (h : RInv limit r) : RInv limit (r.writeRune ru) := by
  obtain ⟨h1, h2, h3, h4, h5, h6, h7, h8⟩ := h
  unfold tailRenderer.writeRune setLine
  refine ⟨h1, h2, ?_, ?_, h5, ?_, ?_, h8⟩ <;>
    simp only [List.length_set] <;> first | exact h3 | exact h4 | exact h6 | (split <;> omega)

theorem RInv_flushAux (limit : Int) (fuel : Nat) (r : tailRenderer) (wrote : Bool)
    (h : RInv limit r) : RInv limit (flushAux fuel r wrote).1 := by
  induction fuel generalizing r wrote with
  | zero => exact h
  | succ fuel ih =>
    unfold flushAux
    dsimp only
    split
    · exact h
    · split
      · exact ih _ _ (RInv_writeRune limit r _ h)
      · exact h

theorem RInv_flush (limit : Int) (r : tailRenderer)
    (h : RInv limit r) : RInv limit r.flushPendingUTF8.1 :=
  RInv_flushAux limit _ r false h

theorem RInv_moveCursorUp (limit : Int) (r : tailRenderer) (n : Int)
    (h : RInv limit r) : RInv limit (r.moveCursorUp n) := by
  obtain ⟨h1, h2, h3, h4, h5, h6, h7, h8⟩ := h
  unfold tailRenderer.moveCursorUp
  refine ⟨h1, h2, h3, h4, ?_, ?_, h7, h8⟩ <;> dsimp only <;> split_ifs <;> omega

theorem RInv_applyCSI (limit : Int) (r : tailRenderer) (seq : List Nat)
    (h : RInv limit r) : RInv limit (r.applyCSI seq).1 := by
  unfold tailRenderer.applyCSI
  dsimp only
  split
  · exact h
  · split
    · exact RInv_moveCursorUp limit r _ h
    · exact h

theorem RInv_compactActive (limit : Int) (r : tailRenderer)
    (hl : 0 < limit)
    (h1 : r.limit = limit) (h2 : r.activeWindow = 256)
    (h3 : 1 ≤ r.active.length) (h4 : (r.active.length : Int) ≤ 257)
    (h5 : 0 ≤ r.cursorLine) (h6 : r.cursorLine < (r.active.length : Int))
    (h7 : 0 ≤ r.cursorCol)
    (h8 : (r.history.length : Int) ≤ max 0 (limit - 256))
    (h9 : (r.active.length : Int) ≤ 256 ∨ 1 ≤ r.cursorLine) :
    RInv limit r.compactActive := by
  unfold tailRenderer.compactActive
  rw [h1, h2]
  dsimp only
  split_ifs with hA hB hC hD hE <;>
    refine ⟨?_, ?_, ?_, ?_, ?_, ?_, ?_, ?_⟩ <;>
    (first
      | exact h1
      | exact h2
      | rfl
      | exact h7
      | (dsimp only
         try simp only [List.length_drop, List.length_append, List.length_map,
           List.length_take] at *
         omega))

theorem RInv_advanceLine (limit : Int) (r : tailRenderer)
    (hl : 0 < limit) (h : RInv limit r) : RInv limit r.advanceLine := by
  obtain ⟨h1, h2, h3, h4, h5, h6, h7, h8⟩ := h
  unfold tailRenderer.advanceLine
  dsimp only
  split
  · rename_i hc
    refine RInv_compactActive limit _ hl h1 h2 ?_ ?_ ?_ ?_ ?_ ?_ ?_ <;>
      dsimp only <;>
      (try simp only [List.length_append, List.length_cons, List.length_nil]) <;>
      omega
  · rename_i hc
    refine RInv_compactActive limit _ hl h1 h2 ?_ ?_ ?_ ?_ ?_ ?_ ?_ <;>
      dsimp only <;> omega

theorem RInv_ingestStep (limit : Int) (r : tailRenderer) (b : Nat)
    (hl : 0 < limit) (h : RInv limit r) : RInv limit (r.ingestStep b).1 := by
  unfold tailRenderer.ingestStep
  dsimp only
  split
  · split
    · split
      · exact h
      · exact h
    · split
      · exact RInv_applyCSI limit _ _ h
      · exact h
  · split
    · exact RInv_flush limit r h
    · split
      · have := RInv_flush limit r h
        exact ⟨this.1, this.2.1, this.2.2.1, this.2.2.2.1, this.2.2.2.2.1,
          this.2.2.2.2.2.1, le_refl 0, this.2.2.2.2.2.2.2⟩
      · split
        · exact RInv_advanceLine limit _ hl (RInv_flush limit r h)
        · exact RInv_flushAux limit _ _ false h

theorem RInv_ingest (limit : Int) (r : tailRenderer) (data : List Nat)
    (hl : 0 < limit) (h : RInv limit r) : RInv limit (r.ingest data).1 := by
  induction data generalizing r with
  | nil => exact h
  | cons b rest ih =>
    have hstep : (r.ingest (b :: rest)).1 = (((r.ingestStep b).1).ingest rest).1 := by
      simp only [tailRenderer.ingest, List.foldl_cons, List.nil_append, Bool.false_or]
      rw [ingest_foldl_acc]
      rfl
    rw [hstep]
    exact ih _ (RInv_ingestStep limit r b hl h)

theorem RInv_ingestAll (limit : Int) (chunks : List (List Nat))
    (hl : 0 < limit) (r : tailRenderer) (h : RInv limit r) :
    RInv limit (ingestAll r chunks) := by
  induction chunks generalizing r with
  | nil => exact h
  | cons c rest ih => exact ih _ (RInv_ingest limit r c hl h)

/-- **C2, amended**: for every tail renderer created with a positive limit
and after every sequence of ingest calls, the cursor is in bounds
(`0 <= cursorLine < len(active)`), `cursorCol >= 0`, and
`len(history) + len(active) <= max(limit, activeWindow)`; the stored-row
bound `limit` itself only holds when `limit >= activeWindow = 256`, since
compaction never shrinks the active window below 256 rows. -/
theorem renderer_invariants (limit : Int) (chunks : List (List Nat)) (hl : 0 < limit) :
    0 ≤ (ingestAll (newTailRenderer limit) chunks).cursorLine ∧
    (ingestAll (newTailRenderer limit) chunks).cursorLine
        < ((ingestAll (newTailRenderer limit) chunks).active.length : Int) ∧
    0 ≤ (ingestAll (newTailRenderer limit) chunks).cursorCol ∧
    ((ingestAll (newTailRenderer limit) chunks).history.length : Int)
        + ((ingestAll (newTailRenderer limit) chunks).active.length : Int)
        ≤ max limit 256 := by
  have h0 : RInv limit (newTailRenderer limit) := by
    refine ⟨rfl, rfl, ?_, ?_, ?_, ?_, ?_, ?_⟩ <;> simp [newTailRenderer] <;> omega
  obtain ⟨h1, h2, h3, h4, h5, h6, h7, h8⟩ := RInv_ingestAll limit chunks hl _ h0
  exact ⟨h5, h6, h7, by omega⟩

/-- **C2, counterexample**: with limit 100 (positive, as in the repo's own
tests) and 257 line feeds, the compaction performed while ingesting the
final byte — whose output is exactly the state after all 257 bytes —
leaves `len(history) + len(active) = 256 > 100 = limit`. -/
theorem renderer_invariants_cex :
    (tailRenderer.compactActive
        { ((newTailRenderer 100).ingest (List.replicate 256 10)).1 with
            active := ((newTailRenderer 100).ingest (List.replicate 256 10)).1.active ++ [⟨[]⟩]
            cursorLine := ((newTailRenderer 100).ingest (List.replicate 256 10)).1.cursorLine + 1
            cursorCol := 0 }
      = ((newTailRenderer 100).ingest (List.replicate 257 10)).1) ∧
    ((((newTailRenderer 100).ingest (List.replicate 257 10)).1.history.length : Int)
      + (((newTailRenderer 100).ingest (List.replicate 257 10)).1.active.length : Int)
      > 100) := by
  constructor
  · rfl
  · decide

theorem renderer_invariants_witness :
    (0 : Int) < 5 ∧
    (0 ≤ (ingestAll (newTailRenderer 5) [[97, 10]]).cursorLine ∧
     (ingestAll (newTailRenderer 5) [[97, 10]]).cursorLine
        < ((ingestAll (newTailRenderer 5) [[97, 10]]).active.length : Int) ∧
     0 ≤ (ingestAll (newTailRenderer 5) [[97, 10]]).cursorCol ∧
     ((ingestAll (newTailRenderer 5) [[97, 10]]).history.length : Int)
        + ((ingestAll (newTailRenderer 5) [[97, 10]]).active.length : Int)
        ≤ max 5 256) :=
  ⟨by decide, renderer_invariants 5 [[97, 10]] (by decide)⟩

/-! ### C6: wrapping is exact greedy segmentation -/

/-! ### `takeFit` basics -/

theorem takeFit_append (W w : Nat) (cs : List Char) :
    takeFit W w cs ++ cs.drop (takeFit W w cs).length = cs := by
  induction cs generalizing w with
  | nil => rfl
  | cons c rest ih =>
    unfold takeFit
    split
    · simp only [List.length_cons, List.cons_append]
      rw [List.drop_succ_cons]
      rw [ih]
    · simp

theorem takeFit_vis (W w : Nat) (cs : List Char) (h : w ≤ W) :
    w + visWidth (takeFit W w cs) ≤ W := by
  induction cs generalizing w with
  | nil => simpa using h
  | cons c rest ih =>
    unfold takeFit
    split
    · rename_i hfit
      have := ih (w + cw c) hfit
      simp only [visWidth_cons]
      omega
    · simpa using h

theorem takeFit_ne_nil (W w : Nat) (c : Char) (rest : List Char)
    (h : w + cw c ≤ W) : takeFit W w (c :: rest) ≠ [] := by
  unfold takeFit
  rw [if_pos h]
  simp

theorem takeFit_longest (W : Nat) (s : List Char) :
    ∀ (w : Nat) (t' cs : List Char), s ++ t' = cs → w + visWidth s ≤ W →
      s.length ≤ (takeFit W w cs).length := by
  induction s with
  | nil => intro w t' cs h hv; simp
  | cons c s' ih =>
    intro w t' cs h hv
    subst h
    simp only [visWidth_cons] at hv
    unfold takeFit
    simp only [List.cons_append]
    rw [if_pos (by omega : w + cw c ≤ W)]
    simp only [List.length_cons, Nat.add_le_add_iff_right]
    exact ih (w + cw c) t' _ rfl (by omega)

theorem greedySplit_nil (W : Nat) : greedySplit W [] = [] := by
  rw [greedySplit]
  simp

theorem greedySplit_cons (W : Nat) (cs : List Char) (hne : cs ≠ [])
    (hfit : takeFit W 0 cs ≠ []) :
    greedySplit W cs
      = takeFit W 0 cs :: greedySplit W (cs.drop (takeFit W 0 cs).length) := by
  have hlen : ¬((takeFit W 0 cs).length = 0) := fun h => hfit (List.length_eq_zero.mp h)
  rw [greedySplit, dif_neg hne]
  simp only
  rw [dif_neg hlen]

theorem head_fit (W : Nat) (cs : List Char) (hne : cs ≠ [])
    (hW : ∀ c ∈ cs, cw c ≤ W) : takeFit W 0 cs ≠ [] := by
  match cs with
  | [] => exact absurd rfl hne
  | c :: rest =>
    exact takeFit_ne_nil W 0 c rest (by simpa using hW c (List.mem_cons_self c rest))

theorem greedySplit_flatten_aux (W : Nat) :
    ∀ (n : Nat) (cs : List Char), cs.length ≤ n →
      (∀ c ∈ cs, cw c ≤ W) → (greedySplit W cs).flatten = cs := by
  intro n
  induction n with
  | zero =>
    intro cs hlen _
    have : cs = [] := List.length_eq_zero.mp (Nat.le_zero.mp hlen)
    subst this
    simp [greedySplit_nil]
  | succ n ih =>
    intro cs hlen hW
    by_cases hne : cs = []
    · subst hne
      simp [greedySplit_nil]
    · have hfit : takeFit W 0 cs ≠ [] := head_fit W cs hne hW
      have htpos : 1 ≤ (takeFit W 0 cs).length := List.length_pos.mpr hfit
      rw [greedySplit_cons W cs hne hfit, List.flatten_cons,
          ih (cs.drop (takeFit W 0 cs).length)
            (by simp only [List.length_drop]; omega)
            (fun c hc => hW c (List.mem_of_mem_drop hc)),
          takeFit_append]

theorem greedySplit_flatten (W : Nat) (cs : List Char)
    (hW : ∀ c ∈ cs, cw c ≤ W) : (greedySplit W cs).flatten = cs :=
  greedySplit_flatten_aux W cs.length cs (le_refl _) hW

theorem greedySplit_bound_aux (W : Nat) :
    ∀ (n : Nat) (cs : List Char), cs.length ≤ n →
      (∀ c ∈ cs, cw c ≤ W) → ∀ s ∈ greedySplit W cs, visWidth s ≤ W := by
  intro n
  induction n with
  | zero =>
    intro cs hlen _ s hs
    have : cs = [] := List.length_eq_zero.mp (Nat.le_zero.mp hlen)
    subst this
    rw [greedySplit_nil] at hs
    simp at hs
  | succ n ih =>
    intro cs hlen hW s hs
    by_cases hne : cs = []
    · subst hne
      rw [greedySplit_nil] at hs
      simp at hs
    · have hfit : takeFit W 0 cs ≠ [] := head_fit W cs hne hW
      have htpos : 1 ≤ (takeFit W 0 cs).length := List.length_pos.mpr hfit
      rw [greedySplit_cons W cs hne hfit] at hs
      rcases List.mem_cons.mp hs with h | h
      · subst h
        simpa using takeFit_vis W 0 cs (Nat.zero_le W)
      · exact ih (cs.drop (takeFit W 0 cs).length)
          (by simp only [List.length_drop]; omega)
          (fun c hc => hW c (List.mem_of_mem_drop hc)) s h

theorem greedySplit_bound (W : Nat) (cs : List Char)
    (hW : ∀ c ∈ cs, cw c ≤ W) : ∀ s ∈ greedySplit W cs, visWidth s ≤ W :=
  greedySplit_bound_aux W cs.length cs (le_refl _) hW

theorem visWidth_drop_le (s : List Char) (k : Nat) :
    visWidth (s.drop k) ≤ visWidth s := by
  conv_rhs => rw [← List.take_append_drop k s]
  rw [visWidth_append]
  omega

theorem clip_partition (W : Nat) :
    ∀ (Q : List (List Char)) (k : Nat) (ys : List Char), Q.flatten = ys →
      (∀ s ∈ Q, visWidth s ≤ W) →
      ∃ R : List (List Char), R.flatten = ys.drop k ∧
        (∀ s ∈ R, visWidth s ≤ W) ∧ R.length ≤ Q.length := by
  intro Q
  induction Q with
  | nil =>
    intro k ys h _
    refine ⟨[], ?_, by simp, by simp⟩
    rw [List.flatten_nil] at h
    rw [← h]
    simp
  | cons s Q' ih =>
    intro k ys h hb
    by_cases hk : k ≤ s.length
    · refine ⟨s.drop k :: Q', ?_, ?_, by simp⟩
      · rw [← h]
        simp only [List.flatten_cons]
        rw [List.drop_append_of_le_length hk]
      · intro x hx
        rcases List.mem_cons.mp hx with hx | hx
        · subst hx
          exact le_trans (visWidth_drop_le s k)
            (hb s (List.mem_cons_self _ _))
        · exact hb x (List.mem_cons_of_mem _ hx)
    · have hk2 : s.length ≤ k := le_of_not_le hk
      obtain ⟨R, h1, h2, h3⟩ := ih (k - s.length) Q'.flatten rfl
        (fun x hx => hb x (List.mem_cons_of_mem _ hx))
      refine ⟨R, ?_, h2, by simp; omega⟩
      rw [← h]
      simp only [List.flatten_cons]
      have hksplit : k = s.length + (k - s.length) := by omega
      rw [hksplit, List.drop_append]
      exact h1

theorem greedySplit_min_aux (W : Nat) :
    ∀ (n : Nat) (cs : List Char), cs.length ≤ n → cs ≠ [] →
      (∀ c ∈ cs, cw c ≤ W) →
      ∀ (P : List (List Char)), P.flatten = cs → (∀ s ∈ P, visWidth s ≤ W) →
        (greedySplit W cs).length ≤ P.length := by
  intro n
  induction n with
  | zero =>
    intro cs hlen hne _
    exact absurd (List.length_eq_zero.mp (Nat.le_zero.mp hlen)) hne
  | succ n ih =>
    intro cs hlen hne hW P
    induction P with
    | nil =>
      intro hflat _
      rw [List.flatten_nil] at hflat
      exact absurd hflat.symm hne
    | cons s P' ihP =>
      intro hflat hb
      by_cases hs : s = []
      · subst hs
        refine le_trans (ihP (by simpa using hflat)
          (fun x hx => hb x (List.mem_cons_of_mem _ hx))) ?_
        simp
      · have hfit := head_fit W cs hne hW
        have htpos := List.length_pos.mpr hfit
        have hsplit : s ++ P'.flatten = cs := by simpa [List.flatten_cons] using hflat
        have hslen : s.length ≤ (takeFit W 0 cs).length :=
          takeFit_longest W s 0 P'.flatten cs hsplit
            (by simpa using hb s (List.mem_cons_self _ _))
        rw [greedySplit_cons W cs hne hfit]
        simp only [List.length_cons]
        by_cases hrest : cs.drop (takeFit W 0 cs).length = []
        · rw [hrest, greedySplit_nil]
          simp
        · have hP'flat : P'.flatten = cs.drop s.length := by
            rw [← hsplit, List.drop_left]
          obtain ⟨R, hR1, hR2, hR3⟩ := clip_partition W P'
            ((takeFit W 0 cs).length - s.length) (cs.drop s.length) hP'flat
            (fun x hx => hb x (List.mem_cons_of_mem _ hx))
          have hdrop : (cs.drop s.length).drop ((takeFit W 0 cs).length - s.length)
              = cs.drop (takeFit W 0 cs).length := by
            rw [List.drop_drop]
            congr 1
            omega
          rw [hdrop] at hR1
          have hrec := ih (cs.drop (takeFit W 0 cs).length)
            (by simp only [List.length_drop]; omega) hrest
            (fun c hc => hW c (List.mem_of_mem_drop hc)) R hR1 hR2
          omega

theorem greedySplit_min (W : Nat) (cs : List Char) (hne : cs ≠ [])
    (hW : ∀ c ∈ cs, cw c ≤ W)
    (P : List (List Char)) (hflat : P.flatten = cs)
    (hb : ∀ s ∈ P, visWidth s ≤ W) :
    (greedySplit W cs).length ≤ P.length :=
  greedySplit_min_aux W cs.length cs (le_refl _) hne hW P hflat hb

theorem takeFit_at_cap (W w : Nat) (cs : List Char) (h : W ≤ w) :
    takeFit W w cs = [] := by
  cases cs with
  | nil => rfl
  | cons c rest =>
    unfold takeFit
    rw [if_neg]
    have := cw_pos c
    omega

theorem wrapAux_eq (width : Int) (W : Nat) (hwW : width = (W : Int)) :
    ∀ (cs cur : List Char) (w : Nat) (out : List (List Char)),
      (∀ c ∈ cs, cw c ≤ W) → w = visWidth cur → w < W →
      wrapAux width cs cur w out =
        (if cs.drop (takeFit W w cs).length = [] then
          (if (cur ++ takeFit W w cs).length > 0 ∨ out.length = 0
           then out ++ [cur ++ takeFit W w cs] else out)
         else wrapAux width (cs.drop (takeFit W w cs).length) [] 0
           (out ++ [cur ++ takeFit W w cs])) := by
  intro cs
  induction cs with
  | nil =>
    intro cur w out _ hw hlt
    simp [wrapAux, takeFit]
  | cons c cs' ih =>
    intro cur w out hchars hw hlt
    have hcw : cw c ≤ W := hchars c (List.mem_cons_self _ _)
    have hcw1 : 1 ≤ cw c := cw_pos c
    have hchars' : ∀ x ∈ cs', cw x ≤ W := fun x hx => hchars x (List.mem_cons_of_mem _ hx)
    by_cases hov : W < w + cw c
    · -- overflow: flush the current segment, then the byte starts a fresh one
      have hcur : cur.length > 0 := by
        rcases List.eq_nil_or_concat cur with hc | ⟨_, _, hc⟩
        · subst hc
          simp at hw
          omega
        · subst hc
          simp
      have e1 : ((↑(w + cw c) : Int) > width ∧ cur.length > 0) = True := by
        refine eq_true ⟨?_, hcur⟩
        rw [hwW]
        exact_mod_cast hov
      have e2 : (w + cw c ≤ W) = False := eq_false (by omega)
      simp only [wrapAux, takeFit, e1, e2, if_true, if_false, List.length_nil,
        List.drop_zero]
      rw [if_neg (List.cons_ne_nil c cs')]
      simp only [List.append_nil]
      simp [wrapAux]
    · -- the byte fits in the current segment
      have hfit : w + cw c ≤ W := by omega
      have e1 : ((↑(w + cw c) : Int) > width ∧ cur.length > 0) = False := by
        refine eq_false ?_
        rintro ⟨h1, -⟩
        rw [hwW] at h1
        have : W < w + cw c := by exact_mod_cast h1
        omega
      have e2 : (w + cw c ≤ W) = True := eq_true hfit
      simp only [wrapAux, takeFit, e1, e2, if_true, if_false, List.length_cons,
        List.drop_succ_cons]
      by_cases hE : W ≤ w + cw c
      · -- the segment reaches exactly the width: it is emitted here
        have e4 : ((↑(w + cw c) : Int) ≥ width) = True := by
          refine eq_true ?_
          rw [hwW]
          exact_mod_cast hE
        rw [takeFit_at_cap W (w + cw c) cs' hE]
        simp only [e4, if_true, List.length_nil, List.drop_zero, List.append_nil]
        by_cases hcs' : cs' = []
        · subst hcs'
          simp [wrapAux]
        · rw [if_neg hcs']
      · -- the segment continues
        have e4 : ((↑(w + cw c) : Int) ≥ width) = False := by
          refine eq_false ?_
          intro h1
          rw [hwW] at h1
          have : W ≤ w + cw c := by exact_mod_cast h1
          omega
        simp only [e4, if_false]
        rw [ih (cur ++ [c]) (w + cw c) out hchars'
          (by rw [hw]; simp) (by omega)]
        simp [List.append_assoc]

theorem wrapAux_greedy_aux (width : Int) (W : Nat) (hwW : width = (W : Int))
    (hW : 0 < W) :
    ∀ (n : Nat) (cs : List Char), cs.length ≤ n → cs ≠ [] →
      (∀ c ∈ cs, cw c ≤ W) →
      ∀ out, wrapAux width cs [] 0 out = out ++ greedySplit W cs := by
  intro n
  induction n with
  | zero =>
    intro cs hlen hne _
    exact absurd (List.length_eq_zero.mp (Nat.le_zero.mp hlen)) hne
  | succ n ih =>
    intro cs hlen hne hchars out
    have hfit : takeFit W 0 cs ≠ [] := head_fit W cs hne hchars
    have htpos : 1 ≤ (takeFit W 0 cs).length := List.length_pos.mpr hfit
    rw [wrapAux_eq width W hwW cs [] 0 out hchars rfl hW]
    by_cases hrest : cs.drop (takeFit W 0 cs).length = []
    · rw [if_pos hrest, greedySplit_cons W cs hne hfit, hrest, greedySplit_nil]
      rw [if_pos]
      · simp
      · simp [List.length_pos.mpr hfit]
    · rw [if_neg hrest, greedySplit_cons W cs hne hfit]
      rw [ih (cs.drop (takeFit W 0 cs).length)
        (by simp only [List.length_drop]; omega) hrest
        (fun c hc => hchars c (List.mem_of_mem_drop hc)) (out ++ [[] ++ takeFit W 0 cs])]
      simp

theorem wrapRunes_eq_greedy (line : String) (width : Int) (W : Nat)
    (hwW : width = (W : Int)) (hW : 0 < W) (hne : line ≠ "")
    (hchars : ∀ c ∈ line.toList, cw c ≤ W) :
    wrapRunes line width = (greedySplit W line.toList).map String.mk := by
  unfold wrapRunes
  rw [if_neg (by omega : ¬width ≤ 0), if_neg hne]
  have hne2 : line.toList ≠ [] := by
    intro h
    apply hne
    have := congrArg String.mk h
    simpa [String.mk] using this
  rw [wrapAux_greedy_aux width W hwW hW line.toList.length line.toList (le_refl _)
    hne2 hchars []]
  simp

/-- **C6, amended**: for every logical line and every positive width such
that no single character is wider than the width, `wrapRunes` splits the
line into the minimum number of segments such that no segment's visual
width exceeds the width, preserving character order and dropping no
character; an empty logical line yields exactly one empty segment.  (A
character wider than the width — a double-width character with width 1 —
necessarily yields a segment exceeding the width.) -/
theorem wrapRunes_spec (line : String) (width : Int)
    (hw : 0 < width)
    (hchars : ∀ c ∈ line.toList, (cw c : Int) ≤ width) :
    ((wrapRunes line width).map String.toList).flatten = line.toList ∧
    (∀ seg ∈ wrapRunes line width, (visWidth seg.toList : Int) ≤ width) ∧
    (line ≠ "" → ∀ P : List (List Char), P.flatten = line.toList →
      (∀ s ∈ P, (visWidth s : Int) ≤ width) →
      (wrapRunes line width).length ≤ P.length) ∧
    wrapRunes "" width = [""] := by
  have hmk : ∀ l : List Char, (String.mk l).toList = l := fun l => rfl
  have hempty : wrapRunes "" width = [""] := by
    unfold wrapRunes
    split_ifs <;> rfl
  have hwW : width = (width.toNat : Int) := by omega
  have hW : 0 < width.toNat := by omega
  have hchars' : ∀ c ∈ line.toList, cw c ≤ width.toNat := by
    intro c hc
    have := hchars c hc
    omega
  by_cases hne : line = ""
  · subst hne
    refine ⟨?_, ?_, ?_, hempty⟩
    · rw [hempty]
      simp
    · rw [hempty]
      intro seg hs
      simp only [List.mem_singleton] at hs
      subst hs
      simp
      omega
    · intro h
      exact absurd rfl h
  · have hne2 : line.toList ≠ [] := by
      intro h
      apply hne
      have := congrArg String.mk h
      simpa [String.mk] using this
    rw [wrapRunes_eq_greedy line width width.toNat hwW hW hne hchars']
    refine ⟨?_, ?_, ?_, hempty⟩
    · rw [List.map_map]
      have : (String.toList ∘ String.mk) = id := by
        funext l
        exact hmk l
      rw [this, List.map_id]
      exact greedySplit_flatten width.toNat line.toList hchars'
    · intro seg hs
      obtain ⟨s, hsmem, hseq⟩ := List.mem_map.mp hs
      subst hseq
      rw [hmk]
      have := greedySplit_bound width.toNat line.toList hchars' s hsmem
      omega
    · intro _ P hP hb
      rw [List.length_map]
      refine greedySplit_min width.toNat line.toList hne2 hchars' P hP ?_
      intro s hs
      have := hb s hs
      omega

/-- **C6, counterexample**: with width 1 (positive) and the double-width
character U+4E00, `wrapRunes` emits a segment of visual width 2, so the
claim's "no segment's visual width exceeds the width" fails as stated. -/
theorem wrapRunes_cex :
    (0 : Int) < 1 ∧ wrapRunes "一" 1 = ["一"] ∧
    ((visWidth ("一".toList) : Int) > 1) := by decide

theorem wrapRunes_spec_witness :
    ((0 : Int) < 2 ∧ ∀ c ∈ "abc".toList, (cw c : Int) ≤ 2) ∧
    (((wrapRunes "abc" 2).map String.toList).flatten = "abc".toList ∧
     (∀ seg ∈ wrapRunes "abc" 2, (visWidth seg.toList : Int) ≤ 2) ∧
     ("abc" ≠ "" → ∀ P : List (List Char), P.flatten = "abc".toList →
       (∀ s ∈ P, (visWidth s : Int) ≤ 2) →
       (wrapRunes "abc" 2).length ≤ P.length) ∧
     wrapRunes "" 2 = [""]) :=
  ⟨⟨by decide, by decide⟩, wrapRunes_spec "abc" 2 (by decide) (by decide)⟩

/-! ### C5: round-trip of line-feed-terminated text -/

/-! ### UTF-8 round-trip facts -/

theorem char_valid (c : Char) :
    c.toNat < 0xd800 ∨ (0xdfff < c.toNat ∧ c.toNat < 0x110000) := by
  have h := c.valid
  rcases h with h | ⟨h1, h2⟩
  · left
    exact_mod_cast h
  · right
    constructor <;> exact_mod_cast ‹_›

theorem char_lt (c : Char) : c.toNat < 0x110000 := by
  rcases char_valid c with h | ⟨_, h⟩
  · omega
  · exact h

theorem utf8Size_eq (b : Nat) (lo hi sz : Nat) (hlo : lo ≤ b) (hhi : b < hi)
    (hcase : (lo = 0 ∧ hi = 0x80 ∧ sz = 1) ∨ (lo = 0xc2 ∧ hi = 0xe0 ∧ sz = 2) ∨
      (lo = 0xe0 ∧ hi = 0xf0 ∧ sz = 3) ∨ (lo = 0xf0 ∧ hi = 0xf5 ∧ sz = 4)) :
    utf8Size b = sz := by
  unfold utf8Size
  split_ifs <;> omega

theorem utf8Invalid_false (b : Nat) (h : b < 0x80 ∨ (0xc2 ≤ b ∧ b < 0xf5)) :
    (utf8Invalid b = true) = False := by
  simp only [utf8Invalid, decide_eq_true_eq, eq_iff_iff, iff_false]
  omega

theorem decodeRune2_eq (b0 b1 v : Nat)
    (h0 : 0xc2 ≤ b0 ∧ b0 < 0xe0)
    (h1 : acceptLo b0 ≤ b1 ∧ b1 ≤ acceptHi b0)
    (hval : (b0 % 32) * 64 + b1 % 64 = v) :
    decodeRune [b0, b1] = (v, 2) ∧ fullRune [b0, b1] = true ∧
    fullRune [b0] = false := by
  have hinv := utf8Invalid_false b0 (by omega)
  have hsz : utf8Size b0 = 2 := utf8Size_eq b0 0xc2 0xe0 2 h0.1 h0.2 (by tauto)
  have hnotlt : ¬(b0 < 0x80) := by omega
  have hor : ¬(b0 < 0x80 ∨ utf8Invalid b0 = true) := by
    rintro (h | h)
    · omega
    · rw [hinv] at h
      exact h
  refine ⟨?_, ?_, ?_⟩
  · simp only [decodeRune, List.length_cons, List.length_nil, hinv, if_false,
      hsz, if_neg hnotlt]
    rw [if_neg (by omega : ¬(1 + 1 < 2)),
      if_neg (by omega : ¬(b1 < acceptLo b0 ∨ acceptHi b0 < b1))]
    simp [hval]
  · simp only [fullRune, List.length_cons, List.length_nil, hsz]
    rw [if_neg hor, if_pos (by omega : 2 ≤ 1 + 1)]
  · simp only [fullRune, List.length_cons, List.length_nil, hsz]
    rw [if_neg hor, if_neg (by omega : ¬(2 ≤ 0 + 1))]

theorem decodeRune3_eq (b0 b1 b2 v : Nat)
    (h0 : 0xe0 ≤ b0 ∧ b0 < 0xf0)
    (h1 : acceptLo b0 ≤ b1 ∧ b1 ≤ acceptHi b0)
    (h2 : 0x80 ≤ b2 ∧ b2 ≤ 0xbf)
    (hval : (b0 % 16) * 4096 + (b1 % 64) * 64 + b2 % 64 = v) :
    decodeRune [b0, b1, b2] = (v, 3) ∧ fullRune [b0, b1, b2] = true ∧
    fullRune [b0] = false ∧ fullRune [b0, b1] = false := by
  have hinv := utf8Invalid_false b0 (by omega)
  have hsz : utf8Size b0 = 3 := utf8Size_eq b0 0xe0 0xf0 3 h0.1 h0.2 (by tauto)
  have hnotlt : ¬(b0 < 0x80) := by omega
  have hor : ¬(b0 < 0x80 ∨ utf8Invalid b0 = true) := by
    rintro (h | h)
    · omega
    · rw [hinv] at h
      exact h
  refine ⟨?_, ?_, ?_, ?_⟩
  · simp only [decodeRune, List.length_cons, List.length_nil, hinv, if_false,
      hsz, if_neg hnotlt]
    rw [if_neg (by omega : ¬(2 + 1 < 3)),
      if_neg (by omega : ¬(b1 < acceptLo b0 ∨ acceptHi b0 < b1)),
      if_neg (by omega : ¬(3 = 2)),
      if_neg (by omega : ¬(b2 < 0x80 ∨ 0xbf < b2))]
    simp [hval]
  · simp only [fullRune, List.length_cons, List.length_nil, hsz]
    rw [if_neg hor, if_pos (by omega : 3 ≤ 2 + 1)]
  · simp only [fullRune, List.length_cons, List.length_nil, hsz]
    rw [if_neg hor, if_neg (by omega : ¬(3 ≤ 0 + 1))]
  · simp only [fullRune, List.length_cons, List.length_nil, hsz]
    rw [if_neg hor, if_neg (by omega : ¬(3 ≤ 1 + 1)),
      if_neg (by omega : ¬(b1 < acceptLo b0 ∨ acceptHi b0 < b1))]

theorem decodeRune4_eq (b0 b1 b2 b3 v : Nat)
    (h0 : 0xf0 ≤ b0 ∧ b0 < 0xf5)
    (h1 : acceptLo b0 ≤ b1 ∧ b1 ≤ acceptHi b0)
    (h2 : 0x80 ≤ b2 ∧ b2 ≤ 0xbf)
    (h3 : 0x80 ≤ b3 ∧ b3 ≤ 0xbf)
    (hval : (b0 % 8) * 262144 + (b1 % 64) * 4096 + (b2 % 64) * 64 + b3 % 64 = v) :
    decodeRune [b0, b1, b2, b3] = (v, 4) ∧ fullRune [b0, b1, b2, b3] = true ∧
    fullRune [b0] = false ∧ fullRune [b0, b1] = false ∧
    fullRune [b0, b1, b2] = false := by
  have hinv := utf8Invalid_false b0 (by omega)
  have hsz : utf8Size b0 = 4 := utf8Size_eq b0 0xf0 0xf5 4 h0.1 h0.2 (by tauto)
  have hnotlt : ¬(b0 < 0x80) := by omega
  have hor : ¬(b0 < 0x80 ∨ utf8Invalid b0 = true) := by
    rintro (h | h)
    · omega
    · rw [hinv] at h
      exact h
  refine ⟨?_, ?_, ?_, ?_, ?_⟩
  · simp only [decodeRune, List.length_cons, List.length_nil, hinv, if_false,
      hsz, if_neg hnotlt]
    rw [if_neg (by omega : ¬(3 + 1 < 4)),
      if_neg (by omega : ¬(b1 < acceptLo b0 ∨ acceptHi b0 < b1)),
      if_neg (by omega : ¬(4 = 2)),
      if_neg (by omega : ¬(b2 < 0x80 ∨ 0xbf < b2)),
      if_neg (by omega : ¬(4 = 3)),
      if_neg (by omega : ¬(b3 < 0x80 ∨ 0xbf < b3))]
    simp [hval]
  · simp only [fullRune, List.length_cons, List.length_nil, hsz]
    rw [if_neg hor, if_pos (by omega : 4 ≤ 3 + 1)]
  · simp only [fullRune, List.length_cons, List.length_nil, hsz]
    rw [if_neg hor, if_neg (by omega : ¬(4 ≤ 0 + 1))]
  · simp only [fullRune, List.length_cons, List.length_nil, hsz]
    rw [if_neg hor, if_neg (by omega : ¬(4 ≤ 1 + 1)),
      if_neg (by omega : ¬(b1 < acceptLo b0 ∨ acceptHi b0 < b1))]
  · simp only [fullRune, List.length_cons, List.length_nil, hsz]
    rw [if_neg hor, if_neg (by omega : ¬(4 ≤ 2 + 1)),
      if_neg (by omega : ¬(b1 < acceptLo b0 ∨ acceptHi b0 < b1)),
      if_neg (by omega : ¬(b2 < 0x80 ∨ 0xbf < b2))]

theorem encodeChar_spec (c : Char) :
    decodeRune (encodeChar c) = (c.toNat, (encodeChar c).length) ∧
    fullRune (encodeChar c) = true ∧
    ∀ k, 0 < k → k < (encodeChar c).length → fullRune ((encodeChar c).take k) = false := by
  have hlt := char_lt c
  by_cases h1 : c.toNat < 0x80
  · have henc : encodeChar c = [c.toNat] := by simp [encodeChar, h1]
    rw [henc]
    refine ⟨by simp [decodeRune, h1], by simp [fullRune, h1], ?_⟩
    intro k hk1 hk2
    simp only [List.length_cons, List.length_nil] at hk2
    omega
  · by_cases h2 : c.toNat < 0x800
    · have henc : encodeChar c = [0xc0 + c.toNat / 64, 0x80 + c.toNat % 64] := by
        simp [encodeChar, h1, h2]
      have hb0 : 0xc2 ≤ 0xc0 + c.toNat / 64 ∧ 0xc0 + c.toNat / 64 < 0xe0 := by omega
      have haccept : acceptLo (0xc0 + c.toNat / 64) ≤ 0x80 + c.toNat % 64 ∧
          0x80 + c.toNat % 64 ≤ acceptHi (0xc0 + c.toNat / 64) := by
        simp only [acceptLo, acceptHi]
        split_ifs <;> omega
      obtain ⟨hd, hf, hp⟩ := decodeRune2_eq (0xc0 + c.toNat / 64)
        (0x80 + c.toNat % 64) c.toNat hb0 haccept (by omega)
      rw [henc]
      refine ⟨by simpa using hd, hf, ?_⟩
      intro k hk1 hk2
      simp only [List.length_cons, List.length_nil] at hk2
      have hk : k = 1 := by omega
      subst hk
      simpa using hp
    · by_cases h3 : c.toNat < 0x10000
      · rcases char_valid c with hv | ⟨hv1, hv2⟩ <;>
        · have henc : encodeChar c = [0xe0 + c.toNat / 4096,
              0x80 + (c.toNat / 64) % 64, 0x80 + c.toNat % 64] := by
            simp [encodeChar, h1, h2, h3]
          have hb0 : 0xe0 ≤ 0xe0 + c.toNat / 4096 ∧ 0xe0 + c.toNat / 4096 < 0xf0 := by
            omega
          have haccept : acceptLo (0xe0 + c.toNat / 4096) ≤ 0x80 + (c.toNat / 64) % 64 ∧
              0x80 + (c.toNat / 64) % 64 ≤ acceptHi (0xe0 + c.toNat / 4096) := by
            simp only [acceptLo, acceptHi]
            split_ifs <;> omega
          obtain ⟨hd, hf, hp1, hp2⟩ := decodeRune3_eq (0xe0 + c.toNat / 4096)
            (0x80 + (c.toNat / 64) % 64) (0x80 + c.toNat % 64) c.toNat hb0 haccept
            (by omega) (by omega)
          rw [henc]
          refine ⟨by simpa using hd, hf, ?_⟩
          intro k hk1 hk2
          simp only [List.length_cons, List.length_nil] at hk2
          have hk : k = 1 ∨ k = 2 := by omega
          rcases hk with hk | hk <;> subst hk
          · simpa using hp1
          · simpa using hp2
      · have henc : encodeChar c = [0xf0 + c.toNat / 262144,
            0x80 + (c.toNat / 4096) % 64, 0x80 + (c.toNat / 64) % 64,
            0x80 + c.toNat % 64] := by
          simp [encodeChar, h1, h2, h3]
        have hb0 : 0xf0 ≤ 0xf0 + c.toNat / 262144 ∧ 0xf0 + c.toNat / 262144 < 0xf5 := by
          omega
        have haccept : acceptLo (0xf0 + c.toNat / 262144) ≤ 0x80 + (c.toNat / 4096) % 64 ∧
            0x80 + (c.toNat / 4096) % 64 ≤ acceptHi (0xf0 + c.toNat / 262144) := by
          simp only [acceptLo, acceptHi]
          split_ifs <;> omega
        obtain ⟨hd, hf, hp1, hp2, hp3⟩ := decodeRune4_eq (0xf0 + c.toNat / 262144)
          (0x80 + (c.toNat / 4096) % 64) (0x80 + (c.toNat / 64) % 64)
          (0x80 + c.toNat % 64) c.toNat hb0 haccept
          (by omega) (by omega) (by omega)
        rw [henc]
        refine ⟨by simpa using hd, hf, ?_⟩
        intro k hk1 hk2
        simp only [List.length_cons, List.length_nil] at hk2
        have hk : k = 1 ∨ k = 2 ∨ k = 3 := by omega
        rcases hk with hk | hk | hk <;> subst hk
        · simpa using hp1
        · simpa using hp2
        · simpa using hp3

theorem flushAux_empty (m : Nat) (r : tailRenderer) (w : Bool)
    (h : r.pendingUTF8 = []) : flushAux m r w = (r, w) := by
  cases m with
  | zero => rfl
  | succ m =>
    unfold flushAux
    rw [if_pos h]

theorem flushAux_stuck (m : Nat) (r : tailRenderer) (w : Bool)
    (h : fullRune r.pendingUTF8 = false) : flushAux m r w = (r, w) := by
  cases m with
  | zero => rfl
  | succ m =>
    unfold flushAux
    split
    · rfl
    · rw [if_neg (by simp [h])]

theorem writeRune_pendingUTF8 (r : tailRenderer) (c : Char) :
    (r.writeRune c).pendingUTF8 = r.pendingUTF8 := rfl

theorem writeRune_set_pending (r : tailRenderer) (x : List Nat) (c : Char) :
    ({ r with pendingUTF8 := x } : tailRenderer).writeRune c
      = { r.writeRune c with pendingUTF8 := x } := rfl

theorem encodeChar_ne_nil (c : Char) : encodeChar c ≠ [] := by
  unfold encodeChar
  dsimp only
  split_ifs <;> simp

theorem flush_encode (r : tailRenderer) (c : Char)
    (hpend : r.pendingUTF8 = encodeChar c) :
    r.flushPendingUTF8 = ({ r.writeRune c with pendingUTF8 := [] }, true) := by
  obtain ⟨hdec, hfull, _⟩ := encodeChar_spec c
  have hne : r.pendingUTF8 ≠ [] := by
    rw [hpend]
    exact encodeChar_ne_nil c
  have hlen : ∃ m, r.pendingUTF8.length = m + 1 := by
    have := List.length_pos.mpr hne
    exact ⟨r.pendingUTF8.length - 1, by omega⟩
  obtain ⟨m, hm⟩ := hlen
  have hrepl : ¬((decodeRune r.pendingUTF8).1 = 0xfffd ∧ (decodeRune r.pendingUTF8).2 = 1) := by
    rw [hpend, hdec]
    dsimp only
    rintro ⟨hv, hsz⟩
    have h1 : c.toNat = 0xfffd := hv
    have h2 : (encodeChar c).length = 1 := hsz
    unfold encodeChar at h2
    dsimp only at h2
    split_ifs at h2 with g1 g2 g3 <;> simp at h2 <;> omega
  unfold tailRenderer.flushPendingUTF8
  rw [hm]
  unfold flushAux
  rw [if_neg hne, if_pos (by rw [hpend, hfull])]
  simp only [if_neg hrepl]
  rw [hpend, hdec]
  dsimp only
  rw [Char.ofNat_toNat]
  have hdrop : ((r.writeRune c).pendingUTF8).drop (encodeChar c).length = [] := by
    rw [writeRune_pendingUTF8, hpend]
    simp
  rw [flushAux_empty m _ true (by rw [hdrop])]
  simp only [hdrop]

theorem pending_eta (r : tailRenderer) (x : List Nat) (h : r.pendingUTF8 = x) :
    ({ r with pendingUTF8 := x } : tailRenderer) = r := by
  subst h
  rfl

theorem writeRune_pendingCSI (r : tailRenderer) (c : Char) :
    (r.writeRune c).pendingCSI = r.pendingCSI := rfl

theorem width_nonctrl (c : Char) (hw : 1 ≤ runeWidth c) :
    c.toNat ≠ 0x1b ∧ c.toNat ≠ 0x0d ∧ c.toNat ≠ 0x0a := by
  unfold runeWidth at hw
  dsimp only at hw
  split_ifs at hw <;> omega

theorem encodeChar_bytes (c : Char) (b : Nat) (hb : b ∈ encodeChar c) :
    b = c.toNat ∨ 0x80 ≤ b := by
  unfold encodeChar at hb
  dsimp only at hb
  split_ifs at hb <;> simp at hb
  · exact Or.inl hb
  · right; omega
  · right; omega
  · right; omega

theorem ingest_single (r : tailRenderer) (b : Nat) :
    r.ingest [b] = ((r.ingestStep b).1, (r.ingestStep b).2.1.toList, (r.ingestStep b).2.2) := by
  simp [tailRenderer.ingest]

theorem ingestStep_plain (r : tailRenderer) (b : Nat)
    (hcsi : r.pendingCSI = []) (h1 : b ≠ 0x1b) (h2 : b ≠ 0x0d) (h3 : b ≠ 0x0a) :
    r.ingestStep b =
      ((({ r with pendingUTF8 := r.pendingUTF8 ++ [b] }).flushPendingUTF8).1, none,
       (({ r with pendingUTF8 := r.pendingUTF8 ++ [b] }).flushPendingUTF8).2) := by
  simp [tailRenderer.ingestStep, hcsi, h1, h2, h3]

theorem flush_stuck (r : tailRenderer) (h : fullRune r.pendingUTF8 = false) :
    r.flushPendingUTF8 = (r, false) := flushAux_stuck _ _ _ h

theorem ingest_enc_take (r : tailRenderer) (c : Char)
    (hcsi : r.pendingCSI = []) (hpend : r.pendingUTF8 = [])
    (hc : c.toNat ≠ 0x1b ∧ c.toNat ≠ 0x0d ∧ c.toNat ≠ 0x0a) :
    ∀ k, k < (encodeChar c).length →
      r.ingest ((encodeChar c).take k)
        = ({ r with pendingUTF8 := (encodeChar c).take k }, [], false) := by
  obtain ⟨hc1, hc2, hc3⟩ := hc
  intro k
  induction k with
  | zero =>
    intro _
    simp only [List.take_zero]
    rw [pending_eta r [] hpend]
    rfl
  | succ k ih =>
    intro hk
    have hk' : k < (encodeChar c).length := by omega
    have hmem : (encodeChar c).get ⟨k, hk'⟩ ∈ encodeChar c := List.get_mem _ _ _
    have hb : (encodeChar c)[k]? = some ((encodeChar c).get ⟨k, hk'⟩) := by
      simp [List.getElem?_eq_getElem hk']
    rw [List.take_succ, hb]
    simp only [Option.toList_some]
    rw [ingest_append, ih hk']
    have hcsi1 : ({ r with pendingUTF8 := (encodeChar c).take k } : tailRenderer).pendingCSI = [] := hcsi
    rw [ingest_single, ingestStep_plain _ _ hcsi1]
    · have hpend2 : ({ r with pendingUTF8 := (encodeChar c).take k } : tailRenderer).pendingUTF8
          ++ [(encodeChar c).get ⟨k, hk'⟩] = (encodeChar c).take (k + 1) := by
        show (encodeChar c).take k ++ [(encodeChar c).get ⟨k, hk'⟩] = _
        rw [List.take_succ, hb]
        rfl
      have hfull : fullRune ((encodeChar c).take (k + 1)) = false := by
        obtain ⟨_, _, hpref⟩ := encodeChar_spec c
        exact hpref (k + 1) (by omega) hk
      show _ = _
      simp only [hpend2]
      rw [flush_stuck _ hfull]
      rfl
    · intro h
      rcases encodeChar_bytes c _ hmem with h2 | h2 <;> omega
    · intro h
      rcases encodeChar_bytes c _ hmem with h2 | h2 <;> omega
    · intro h
      rcases encodeChar_bytes c _ hmem with h2 | h2 <;> omega

theorem ingest_encodeChar (r : tailRenderer) (c : Char)
    (hcsi : r.pendingCSI = []) (hpend : r.pendingUTF8 = [])
    (hc : c.toNat ≠ 0x1b ∧ c.toNat ≠ 0x0d ∧ c.toNat ≠ 0x0a) :
    r.ingest (encodeChar c) = (r.writeRune c, [], true) := by
  have hne : encodeChar c ≠ [] := encodeChar_ne_nil c
  have hlen : 0 < (encodeChar c).length := List.length_pos.mpr hne
  obtain ⟨m, hm⟩ : ∃ m, (encodeChar c).length = m + 1 := ⟨(encodeChar c).length - 1, by omega⟩
  have hm' : m < (encodeChar c).length := by omega
  have hmem : (encodeChar c).get ⟨m, hm'⟩ ∈ encodeChar c := List.get_mem _ _ _
  have hb : (encodeChar c)[m]? = some ((encodeChar c).get ⟨m, hm'⟩) := by
    simp [List.getElem?_eq_getElem hm']
  have hsplit : encodeChar c = (encodeChar c).take m ++ [(encodeChar c).get ⟨m, hm'⟩] := by
    conv_lhs => rw [show encodeChar c = (encodeChar c).take (encodeChar c).length from
      (List.take_length _).symm, hm]
    rw [List.take_succ, hb]
    rfl
  conv_lhs => rw [hsplit]
  rw [ingest_append, ingest_enc_take r c hcsi hpend ⟨hc.1, hc.2.1, hc.2.2⟩ m hm']
  have hcsi1 : ({ r with pendingUTF8 := (encodeChar c).take m } : tailRenderer).pendingCSI = [] := hcsi
  rw [ingest_single, ingestStep_plain _ _ hcsi1]
  · have hpend2 : ({ r with pendingUTF8 := (encodeChar c).take m } : tailRenderer).pendingUTF8
        ++ [(encodeChar c).get ⟨m, hm'⟩] = encodeChar c := by
      show (encodeChar c).take m ++ [(encodeChar c).get ⟨m, hm'⟩] = _
      exact hsplit.symm
    simp only [hpend2]
    rw [flush_encode { r with pendingUTF8 := encodeChar c } c rfl]
    have h1 : ({ ({ r with pendingUTF8 := encodeChar c } : tailRenderer).writeRune c with
          pendingUTF8 := ([] : List Nat) } : tailRenderer) = r.writeRune c :=
      pending_eta (r.writeRune c) [] (by rw [writeRune_pendingUTF8, hpend])
    simp only [Prod.mk.injEq]
    exact ⟨h1, rfl, rfl⟩
  · intro h
    rcases encodeChar_bytes c _ hmem with h2 | h2
    · exact hc.1 (by omega)
    · omega
  · intro h
    rcases encodeChar_bytes c _ hmem with h2 | h2
    · exact hc.2.1 (by omega)
    · omega
  · intro h
    rcases encodeChar_bytes c _ hmem with h2 | h2
    · exact hc.2.2 (by omega)
    · omega

theorem set_getD_self (l : List lineBuffer) (i : Nat) (h : i < l.length) :
    l.set i (l.getD i ⟨[]⟩) = l := by
  apply List.ext_getElem (by simp)
  intro n h1 h2
  rw [List.getElem_set]
  split
  · next heq =>
    subst heq
    simp [List.getD_eq_getElem?_getD, List.getElem?_eq_getElem h]
  · rfl

theorem visWidth_pos (cs : List Char) (h : cs ≠ []) : 0 < visWidth cs := by
  cases cs with
  | nil => exact absurd rfl h
  | cons c rest =>
    have := cw_pos c
    simp only [visWidth_cons]
    omega

theorem runeIndexAux_full (cs : List Char) : ∀ (w i : Nat) (col : Int),
    (w : Int) + (visWidth cs : Int) ≤ col → runeIndexAux cs w col i = i + cs.length := by
  induction cs with
  | nil =>
    intro w i col _
    simp [runeIndexAux]
  | cons c rest ih =>
    intro w i col h
    have hcw : 1 ≤ cw c := cw_pos c
    have hrest : (0 : Int) ≤ (visWidth rest : Int) := by positivity
    have hv : (visWidth (c :: rest) : Int) = (cw c : Int) + (visWidth rest : Int) := by
      simp only [visWidth_cons]
      push_cast
      ring
    rw [hv] at h
    unfold runeIndexAux
    dsimp only
    have h1 : ¬((w : Int) ≥ col) := by omega
    have h2 : ¬((w : Int) + (cw c : Int) > col) := by omega
    rw [if_neg h1, if_neg h2, ih (w + cw c) (i + 1) col (by push_cast; push_cast at h; omega)]
    simp only [List.length_cons]
    omega

theorem writeAt_append (cs : List Char) (c : Char) :
    lineBuffer.writeAt ⟨cs⟩ ((visWidth cs : Nat) : Int) c = ⟨cs ++ [c]⟩ := by
  cases cs with
  | nil =>
    rfl
  | cons c0 rest =>
    have hpos : 0 < visWidth (c0 :: rest) := visWidth_pos _ (by simp)
    unfold lineBuffer.writeAt
    dsimp only
    rw [if_neg (show ¬((visWidth (c0 :: rest) : Int) < 0) by omega)]
    unfold lineBuffer.runeIndexForColumn
    rw [if_neg (show ¬((visWidth (c0 :: rest) : Int) ≤ 0) by omega)]
    rw [runeIndexAux_full _ 0 0 _ (by dsimp only; omega)]
    rw [if_pos (by simp)]
    simp [lineBuffer.visualWidth]

theorem cw_eq_runeWidth (c : Char) (hw : 1 ≤ runeWidth c) : cw c = runeWidth c := by
  unfold cw
  dsimp only
  rw [if_neg (by omega)]

theorem writeRune_step (r : tailRenderer) (p : List Char) (c : Char)
    (hget : getLine r.active r.cursorLine = ⟨p⟩)
    (hcol : r.cursorCol = ((visWidth p : Nat) : Int))
    (hw : 1 ≤ runeWidth c) :
    r.writeRune c = { r with
      active := setLine r.active r.cursorLine ⟨p ++ [c]⟩
      cursorCol := ((visWidth (p ++ [c]) : Nat) : Int) } := by
  unfold tailRenderer.writeRune
  dsimp only
  rw [hget, hcol, writeAt_append]
  have hcv : ((visWidth p : Nat) : Int) + (runeWidth c : Int)
      = ((visWidth (p ++ [c]) : Nat) : Int) := by
    rw [visWidth_append]
    simp only [visWidth_cons, visWidth_nil]
    rw [cw_eq_runeWidth c hw]
    push_cast
    ring
  rw [hcv, if_neg (by omega)]

theorem writeRune_fold (r : tailRenderer) (ls : List Char) : ∀ (p : List Char),
    r.cursorLine.toNat < r.active.length →
    getLine r.active r.cursorLine = ⟨p⟩ →
    r.cursorCol = ((visWidth p : Nat) : Int) →
    (∀ c ∈ ls, 1 ≤ runeWidth c) →
    ls.foldl tailRenderer.writeRune r
      = { r with
          active := setLine r.active r.cursorLine ⟨p ++ ls⟩
          cursorCol := ((visWidth (p ++ ls) : Nat) : Int) } := by
  induction ls generalizing r with
  | nil =>
    intro p hin hget hcol _
    simp only [List.foldl_nil, List.append_nil]
    rw [← hget, ← hcol]
    show r = { r with
      active := List.set r.active r.cursorLine.toNat (r.active.getD r.cursorLine.toNat ⟨[]⟩)
      cursorCol := r.cursorCol }
    rw [set_getD_self r.active r.cursorLine.toNat hin]
  | cons c rest ih =>
    intro p hin hget hcol hw
    simp only [List.foldl_cons]
    rw [writeRune_step r p c hget hcol (hw c (by simp))]
    rw [ih _ (p ++ [c])
      (by simpa [setLine] using hin)
      (by simp [getLine, setLine, List.getD_eq_getElem?_getD,
            List.getElem?_set_self, hin])
      rfl
      (fun x hx => hw x (by simp [hx]))]
    simp only [setLine, List.set_set, List.append_assoc, List.singleton_append]

theorem ingest_line (r : tailRenderer) (ls : List Char)
    (hcsi : r.pendingCSI = []) (hpend : r.pendingUTF8 = [])
    (hw : ∀ c ∈ ls, 1 ≤ runeWidth c) :
    (r.ingest (utf8Encode ls)).1 = ls.foldl tailRenderer.writeRune r := by
  induction ls generalizing r with
  | nil => rfl
  | cons c rest ih =>
    have henc : utf8Encode (c :: rest) = encodeChar c ++ utf8Encode rest := by
      simp [utf8Encode]
    rw [henc, ingest_append]
    rw [ingest_encodeChar r c hcsi hpend (width_nonctrl c (hw c (by simp)))]
    simp only [List.foldl_cons]
    exact ih (r.writeRune c)
      (by rw [writeRune_pendingCSI]; exact hcsi)
      (by rw [writeRune_pendingUTF8]; exact hpend)
      (fun x hx => hw x (by simp [hx]))

theorem ingestStep_newline (r : tailRenderer)
    (hcsi : r.pendingCSI = []) (hpend : r.pendingUTF8 = []) :
    r.ingestStep 0x0a = (r.advanceLine, some (getLine r.active r.cursorLine).str, true) := by
  have hflush : r.flushPendingUTF8 = (r, false) := flushAux_empty _ _ _ hpend
  simp [tailRenderer.ingestStep, hcsi, hflush]

theorem compactActive_small (r : tailRenderer)
    (h : (r.active.length : Int) ≤ r.activeWindow) : r.compactActive = r := by
  unfold tailRenderer.compactActive
  rw [if_pos h]

theorem compactActive_fresh (r : tailRenderer)
    (hwin : r.activeWindow = 256)
    (hlen : r.active.length ≤ 257)
    (hcl : r.cursorLine = (r.active.length : Int) - 1)
    (hlim : (r.history.length : Int) + (r.active.length : Int) ≤ r.limit) :
    ∃ e : Nat,
      ((e = 0 ∧ r.active.length ≤ 256) ∨ (e = 1 ∧ r.active.length = 257)) ∧
      r.compactActive = { r with
        history := r.history ++ (r.active.take e).map lineBuffer.str
        active := r.active.drop e
        cursorLine := r.cursorLine - (e : Int) } := by
  by_cases hsm : r.active.length ≤ 256
  · refine ⟨0, Or.inl ⟨rfl, hsm⟩, ?_⟩
    rw [compactActive_small r (by rw [hwin]; exact_mod_cast hsm)]
    simp
  · have h257 : r.active.length = 257 := by omega
    refine ⟨1, Or.inr ⟨rfl, h257⟩, ?_⟩
    unfold tailRenderer.compactActive
    dsimp only
    have hlen1 : ((r.active.take 1).map lineBuffer.str).length = 1 := by
      simp [List.length_take, h257]
    have hlend : (r.active.drop 1).length = 256 := by
      simp [List.length_drop, h257]
    split_ifs with h1 h2 h3 h4 h5 h6 <;>
      try (exfalso; simp only [List.length_append, List.length_map, List.length_take,
        List.length_drop, h257, hwin] at *; omega)
    have he : ((r.active.length : Int) - r.activeWindow).toNat = 1 := by
      rw [h257, hwin]
      norm_num
    have he2 : (r.active.length : Int) - r.activeWindow = 1 := by
      rw [h257, hwin]
      norm_num
    rw [he, he2]
    norm_num

theorem line_step (limit : Int) (done : List String) (r : tailRenderer) (ls : List Char)
    (hf : freshState limit done r)
    (hw : ∀ c ∈ ls, 1 ≤ runeWidth c)
    (hbud : (done.length : Int) + 2 ≤ limit) :
    freshState limit (done ++ [String.mk ls]) (r.ingest (utf8Encode ls ++ [0x0a])).1 ∧
    ∃ pre2, (r.ingest (utf8Encode ls ++ [0x0a])).1.active = pre2 ++ [⟨ls⟩, ⟨[]⟩] := by
  obtain ⟨pre, hact, hdone, hcl, hcol, hpend, hcsi, hlimf, hwin, hbound⟩ := hf
  have hlena : r.active.length = pre.length + 1 := by rw [hact]; simp
  have hclt : r.cursorLine.toNat = pre.length := by omega
  have hhl : r.history.length + pre.length = done.length := by
    have h := congrArg List.length hdone
    simpa using h
  have hget0 : getLine r.active r.cursorLine = ⟨[]⟩ := by
    unfold getLine
    rw [hact, hclt]
    simp [List.getD_eq_getElem?_getD, List.getElem?_concat_length]
  have hin : r.cursorLine.toNat < r.active.length := by omega
  have hfold : ls.foldl tailRenderer.writeRune r = { r with
      active := pre ++ [⟨ls⟩]
      cursorCol := ((visWidth ls : Nat) : Int) } := by
    rw [writeRune_fold r ls [] hin hget0 (by simp [hcol]) hw]
    have hset : setLine r.active r.cursorLine ⟨[] ++ ls⟩ = pre ++ [⟨ls⟩] := by
      unfold setLine
      rw [hact, hclt, List.set_append_right _ _ (Nat.le_refl _), Nat.sub_self]
      rfl
    rw [hset]
    simp
  have hstep1 : (r.ingest (utf8Encode ls ++ [0x0a])).1
      = ({ r with active := pre ++ [⟨ls⟩], cursorCol := ((visWidth ls : Nat) : Int) } : tailRenderer).advanceLine := by
    rw [ingest_append]
    rw [ingest_line r ls hcsi hpend hw, hfold]
    rw [ingest_single]
    rw [ingestStep_newline
      { r with active := pre ++ [⟨ls⟩], cursorCol := ((visWidth ls : Nat) : Int) } hcsi hpend]
  have hadv : ({ r with active := pre ++ [⟨ls⟩], cursorCol := ((visWidth ls : Nat) : Int) } : tailRenderer).advanceLine
      = tailRenderer.compactActive { r with
          active := (pre ++ [⟨ls⟩]) ++ [⟨[]⟩]
          cursorLine := r.cursorLine + 1
          cursorCol := 0 } := by
    unfold tailRenderer.advanceLine
    dsimp only
    have hcond : r.cursorLine = ((pre ++ [(⟨ls⟩ : lineBuffer)]).length : Int) - 1 := by
      simp only [List.length_append, List.length_cons, List.length_nil]
      push_cast
      omega
    rw [if_pos hcond]
  obtain ⟨e, hdisj, heq⟩ := compactActive_fresh
    { r with
      active := (pre ++ [⟨ls⟩]) ++ [⟨[]⟩]
      cursorLine := r.cursorLine + 1
      cursorCol := 0 }
    hwin
    (by simp only [List.length_append, List.length_cons, List.length_nil]; omega)
    (by dsimp only
        simp only [List.length_append, List.length_cons, List.length_nil]
        push_cast
        omega)
    (by dsimp only
        simp only [List.length_append, List.length_cons, List.length_nil]
        push_cast
        omega)
  dsimp only at hdisj heq
  simp only [List.length_append, List.length_cons, List.length_nil] at hdisj
  have hble : e ≤ pre.length := by omega
  have hble2 : e ≤ (pre ++ [(⟨ls⟩ : lineBuffer)]).length := by simp; omega
  rw [hstep1, hadv, heq]
  constructor
  · refine ⟨(pre ++ [(⟨ls⟩ : lineBuffer)]).drop e, ?_, ?_, ?_, ?_, hpend, hcsi, hlimf, hwin, ?_⟩
    · dsimp only
      rw [List.drop_append_of_le_length hble2]
    · dsimp only
      rw [List.take_append_of_le_length hble2, List.append_assoc, ← List.map_append,
        List.take_append_drop, List.map_append, ← List.append_assoc, hdone]
      rfl
    · dsimp only
      simp only [List.length_drop, List.length_append, List.length_cons, List.length_nil]
      omega
    · rfl
    · dsimp only
      simp only [List.length_drop, List.length_append, List.length_cons, List.length_nil]
      omega
  · refine ⟨pre.drop e, ?_⟩
    dsimp only
    rw [List.drop_append_of_le_length hble2, List.drop_append_of_le_length hble]
    simp

theorem lines_fold (limit : Int) (lls : List (List Char)) : ∀ (done : List String) (r : tailRenderer),
    freshState limit done r →
    (∀ l ∈ lls, ∀ c ∈ l, 1 ≤ runeWidth c) →
    (done.length : Int) + (lls.length : Int) + 1 ≤ limit →
    freshState limit (done ++ lls.map String.mk)
      (r.ingest (lls.flatMap (fun l => utf8Encode l ++ [0x0a]))).1 := by
  induction lls with
  | nil =>
    intro done r hf _ _
    simpa using hf
  | cons l rest ih =>
    intro done r hf hw hbud
    have hsplit : (l :: rest).flatMap (fun l => utf8Encode l ++ [0x0a])
        = (utf8Encode l ++ [0x0a]) ++ rest.flatMap (fun l => utf8Encode l ++ [0x0a]) := by
      simp
    rw [hsplit]
    have h1 : (r.ingest ((utf8Encode l ++ [0x0a]) ++ rest.flatMap (fun l => utf8Encode l ++ [0x0a]))).1
        = (((r.ingest (utf8Encode l ++ [0x0a])).1).ingest
            (rest.flatMap (fun l => utf8Encode l ++ [0x0a]))).1 := by
      rw [ingest_append]
    rw [h1]
    obtain ⟨hf', _⟩ := line_step limit done r l hf (hw l (by simp))
      (by simp only [List.length_cons] at hbud; push_cast at hbud ⊢; omega)
    have hres := ih (done ++ [String.mk l]) _ hf' (fun x hx => hw x (by simp [hx]))
      (by simp only [List.length_append, List.length_cons, List.length_nil] at *
          push_cast at *
          omega)
    simpa [List.append_assoc] using hres

theorem content_fresh (limit : Int) (done : List String) (r : tailRenderer)
    (hf : freshState limit done r)
    (hllt : (done.length : Int) < limit)
    (hshape : ∃ pre2 lb, r.active = pre2 ++ [lb, ⟨[]⟩] ∧ lb.runes ≠ []) :
    r.content = String.intercalate "\n" done := by
  obtain ⟨pre, hact, hdone, hcl, hcol, hpend, hcsi, hlimf, hwin, hbound⟩ := hf
  obtain ⟨pre2, lb, hact2, hlb⟩ := hshape
  have hpre : pre = pre2 ++ [lb] := by
    have h2 : pre ++ [(⟨[]⟩ : lineBuffer)] = (pre2 ++ [lb]) ++ [(⟨[]⟩ : lineBuffer)] := by
      rw [← hact, hact2]
      simp
    exact List.append_cancel_right h2
  subst hpre
  unfold tailRenderer.content tailRenderer.logicalLines
  dsimp only
  rw [hact2]
  have hlbe : lb.runes.isEmpty = false := by
    simp [List.isEmpty_eq_false, hlb]
  have hkept : ((pre2 ++ [lb, ⟨[]⟩]).reverse.dropWhile (fun l => l.runes.isEmpty)).reverse
      = pre2 ++ [lb] := by
    have hrev : (pre2 ++ [lb, (⟨[]⟩ : lineBuffer)]).reverse
        = (⟨[]⟩ : lineBuffer) :: lb :: pre2.reverse := by
      simp
    rw [hrev]
    rw [List.dropWhile_cons_of_pos (by simp), List.dropWhile_cons_of_neg (by simp [hlbe])]
    simp
  rw [hkept]
  rw [hdone]
  rw [if_neg]
  rintro ⟨_, hgt⟩
  omega

/-- **C5** (corrected).  Ingesting the UTF-8 encoding of a text made of
lines of positive-width characters, each line terminated by a line feed,
on a fresh interpreter whose limit exceeds the line count, makes
`content()` reproduce the text with its final line break removed (the
interpreter's `logicalLines` drops the trailing empty row), provided the
final line feed is not immediately preceded by another line feed. -/
theorem text_round_trip (limit : Int) (lines : List (List Char))
    (hne : lines ≠ [])
    (hw : ∀ l ∈ lines, ∀ c ∈ l, 1 ≤ runeWidth c)
    (hlast : lines.getLast hne ≠ [])
    (hlim : (lines.length : Int) < limit) :
    ((newTailRenderer limit).ingest
        (lines.flatMap (fun l => utf8Encode l ++ [0x0a]))).1.content
      = String.intercalate "\n" (lines.map String.mk) := by
  obtain ⟨init, last, hsplit, hlast'⟩ : ∃ i l, lines = i ++ [l] ∧ l ≠ [] :=
    ⟨lines.dropLast, lines.getLast hne, (List.dropLast_append_getLast hne).symm, hlast⟩
  subst hsplit
  have hf0 : freshState limit [] (newTailRenderer limit) := by
    refine ⟨[], rfl, rfl, by norm_num [newTailRenderer], rfl, rfl, rfl, rfl, rfl,
      by norm_num [newTailRenderer]⟩
  have hlim' : ((init.length : Int) + 1) < limit := by
    simp only [List.length_append, List.length_cons, List.length_nil] at hlim
    push_cast at hlim ⊢
    omega
  have hmid := lines_fold limit init [] (newTailRenderer limit) hf0
    (fun l hl => hw l (by simp [hl]))
    (by simp only [List.length_nil]; push_cast; omega)
  obtain ⟨hf1, pre2, hshape⟩ := line_step limit ([] ++ init.map String.mk) _ last hmid
    (hw last (by simp))
    (by simp only [List.length_append, List.length_nil, List.length_map]; push_cast; omega)
  have hbytes : (init ++ [last]).flatMap (fun l => utf8Encode l ++ [0x0a])
      = init.flatMap (fun l => utf8Encode l ++ [0x0a]) ++ (utf8Encode last ++ [0x0a]) := by
    simp
  rw [hbytes]
  have hcomp : ((newTailRenderer limit).ingest
        (init.flatMap (fun l => utf8Encode l ++ [0x0a]) ++ (utf8Encode last ++ [0x0a]))).1
      = (((newTailRenderer limit).ingest (init.flatMap (fun l => utf8Encode l ++ [0x0a]))).1.ingest
          (utf8Encode last ++ [0x0a])).1 := by
    rw [ingest_append]
  rw [hcomp]
  have hcontent := content_fresh limit (([] ++ init.map String.mk) ++ [String.mk last]) _ hf1
    (by simp only [List.length_append, List.length_nil, List.length_map, List.length_cons]
        push_cast
        omega)
    ⟨pre2, ⟨last⟩, hshape, hlast'⟩
  rw [hcontent]
  simp

/-- The spec's stronger reading is false: the final line break is not
reproduced.  Ingesting `"a\n"` yields content `"a"`, not `"a\n"`. -/
theorem text_round_trip_cex :
    ((newTailRenderer 100).ingest (utf8Encode ['a', Char.ofNat 10])).1.content = "a"
      ∧ "a" ≠ "a\n" := by
  constructor
  · decide
  · decide

/-- Witness: `text_round_trip` applied to the two-character line `hi` with
limit 10. -/
theorem text_round_trip_witness :
    (([['h','i']] : List (List Char)) ≠ []
      ∧ (∀ l ∈ ([['h','i']] : List (List Char)), ∀ c ∈ l, 1 ≤ runeWidth c)
      ∧ ((([['h','i']] : List (List Char)).length : Int) < 10))
    ∧ ((newTailRenderer 10).ingest
        (([['h','i']] : List (List Char)).flatMap (fun l => utf8Encode l ++ [0x0a]))).1.content
      = String.intercalate "\n" (([['h','i']] : List (List Char)).map String.mk) :=
  ⟨⟨by decide, by decide, by decide⟩,
    text_round_trip 10 [['h','i']] (by decide) (by decide) (by decide) (by decide)⟩
